import Mathlib

/-!
Verification of the `startling-emitter` event dispatcher
(`src/createEmitter.ts`, the revision with exact keys, namespace
wildcards, the global wildcard, `once` and `waitFor`).

The embedding is shallow and executable:

* JS `Map` becomes an insertion-ordered association list (`mapGet`,
  `mapSet`, `mapDelete`); JS `Set` becomes an insertion-ordered
  duplicate-free list (`setAdd`, `setDel`).
* A handler is identified by a `HandlerId` (JS function identity); an
  environment `Env` assigns each identity a behavior: a plain handler
  running a list of re-entrant emitter actions, one of the three `once`
  wrappers produced by `once`, or the temporary listener closure created
  by `waitFor`.
* `emit` is interpreted with explicit fuel (re-entrant emits performed by
  handlers consume fuel); it returns the final tables, the ordered trace
  of handler invocations together with the arguments each one received,
  and an outcome: normal return, a propagating thrown error (the source
  has no try/catch around handler calls), or fuel exhaustion.
* The synchronous part of `waitFor` (register listener, arm timer, check
  an already-aborted signal) is `waitForSync`; promise settlement and the
  timer are modelled by the `settled` / `timerArmed` fields threaded
  through the state, for a single pending `waitFor` at a time.
-/

namespace StartlingEmitter

/-- Payload values carried by events. -/
abbrev Value := Nat

/-- Function identity of a registered handler (JS reference equality). -/
abbrev HandlerId := Nat

/-- An event key: a JS `PropertyKey` is a string, a number, or a symbol. -/
inductive Key where
  | str (s : List Char)
  | num (n : Int)
  | sym (n : Nat)
deriving DecidableEq, Repr

/-- `key.endsWith('.*') || key.endsWith(':*')` from `isNamespaceWildcardKey`. -/
def isNamespaceWildcardKey (s : List Char) : Bool :=
  ['.', '*'].isSuffixOf s || [':', '*'].isSuffixOf s

/-- `key.slice(0, -1)` from `wildcardPrefixFromKey`: drop the trailing `*`. -/
def wildcardPrefixFromKey (s : List Char) : List Char :=
  s.dropLast

/-- The loop of `getNamespacePrefixes`: for each index `i` holding `.` or
`:`, record `event.slice(0, i + 1)`. -/
def getNamespacePrefixes (event : List Char) : List (List Char) :=
  (List.range event.length).filterMap fun i =>
    if event.get? i = some '.' ∨ event.get? i = some ':' then
      some (event.take (i + 1))
    else none

/-- First value bound to `k` in an association list (JS `Map.get`). -/
def mapGet {α β : Type} [DecidableEq α] : List (α × β) → α → Option β
  | [], _ => none
  | (k', v) :: rest, k => if k' = k then some v else mapGet rest k

/-- JS `Map.set`: replace the value of an existing key in place, keeping
insertion order, otherwise append the new entry at the end. -/
def mapSet {α β : Type} [DecidableEq α] : List (α × β) → α → β → List (α × β)
  | [], k, v => [(k, v)]
  | (k', v') :: rest, k, v =>
    if k' = k then (k, v) :: rest else (k', v') :: mapSet rest k v

/-- JS `Map.delete`: remove the entry of a key, if present. -/
def mapDelete {α β : Type} [DecidableEq α] : List (α × β) → α → List (α × β)
  | [], _ => []
  | (k', v') :: rest, k => if k' = k then rest else (k', v') :: mapDelete rest k

/-- JS `Set.add`: append unless already present (identity uniqueness). -/
def setAdd {α : Type} [DecidableEq α] (s : List α) (x : α) : List α :=
  if x ∈ s then s else s ++ [x]

/-- JS `Set.delete`: remove the element, if present. -/
def setDel {α : Type} [DecidableEq α] (s : List α) (x : α) : List α :=
  s.filter (fun y => ¬ y = x)

/-- A thrown JS value, as observed by a `catch` or by the `emit` caller:
either a value thrown by user code or an `Error` constructed by the
library (`new Error('Timed out')`, `new Error('Aborted')`). -/
inductive ErrVal where
  | thrown (v : Value)
  | errorMsg (s : List Char)
deriving DecidableEq, Repr

/-- Settlement of the `waitFor` promise: resolved with the payload the
listener received (possibly absent, for void events), or rejected. -/
inductive Settlement where
  | resolved (v : Option Value)
  | rejected (e : ErrVal)
deriving DecidableEq, Repr

/-- Dispatcher state: the three registration tables of `createEmitter`,
plus the settlement status and timer flag of the (single) pending
`waitFor` promise being modelled. -/
structure EState where
  exact : List (Key × List HandlerId)
  ns : List (List Char × List HandlerId)
  star : List HandlerId
  settled : Option Settlement
  cleaned : Bool
  timerArmed : Bool
deriving DecidableEq, Repr

/-- The emitter state right after `createEmitter()` (all tables empty). -/
def emptyState : EState :=
  ⟨[], [], [], none, false, false⟩

/-- `getSet(map, key)`: the set stored at a key, or a fresh empty one. -/
def getSet {α : Type} [DecidableEq α]
    (m : List (α × List HandlerId)) (k : α) : List HandlerId :=
  (mapGet m k).getD []

/-- `getSet(map, key).add(handler)` as performed by `on` and `once`:
inserting the (possibly fresh) set into the map and adding the handler. -/
def addToMap {α : Type} [DecidableEq α]
    (m : List (α × List HandlerId)) (k : α) (h : HandlerId) :
    List (α × List HandlerId) :=
  mapSet m k (setAdd (getSet m k) h)

/-- `removeFromMap`: delete the handler from the keyed set and prune the
entry when the set becomes empty. -/
def removeFromMap {α : Type} [DecidableEq α]
    (m : List (α × List HandlerId)) (k : α) (h : HandlerId) :
    List (α × List HandlerId) :=
  match mapGet m k with
  | none => m
  | some s =>
    let s' := setDel s h
    if s' = [] then mapDelete m k else mapSet m k s'

/-- The classification of a key performed by `on`/`off`/`once`:
`event === '*'` first, then `typeof event === 'string' &&
isNamespaceWildcardKey(event)`, else exact. -/
inductive KClass where
  | star
  | nsw (pfx : List Char)
  | exactK
deriving DecidableEq, Repr

/-- Classify a key the way the registration functions branch on it. -/
def classify (k : Key) : KClass :=
  if k = Key.str ['*'] then .star
  else
    match k with
    | .str s => if isNamespaceWildcardKey s then .nsw (wildcardPrefixFromKey s) else .exactK
    | _ => .exactK

/-- `on(event, handler)`: state effect of registering a handler. (`on`
itself is unavailable as a Lean identifier, hence `onE`.) -/
def onE (st : EState) (event : Key) (h : HandlerId) : EState :=
  match classify event with
  | .star => { st with star := setAdd st.star h }
  | .nsw pfx => { st with ns := addToMap st.ns pfx h }
  | .exactK => { st with exact := addToMap st.exact event h }

/-- `off(event, handler)`; also the effect of the unsubscribe closure
returned by `on`, which performs exactly the same removal. -/
def off (st : EState) (event : Key) (h : HandlerId) : EState :=
  match classify event with
  | .star => { st with star := setDel st.star h }
  | .nsw pfx => { st with ns := removeFromMap st.ns pfx h }
  | .exactK => { st with exact := removeFromMap st.exact event h }

/-- `once(event, handler)`: state effect — the fresh wrapper identity `w`
is inserted into the table selected by the key's classification. The
wrapper's behavior is given by the environment (see `Behavior`). -/
def once (st : EState) (event : Key) (w : HandlerId) : EState :=
  match classify event with
  | .star => { st with star := setAdd st.star w }
  | .nsw pfx => { st with ns := addToMap st.ns pfx w }
  | .exactK => { st with exact := addToMap st.exact event w }

/-- `listenerCount(event)`. -/
def listenerCount (st : EState) (event : Key) : Nat :=
  match classify event with
  | .star => st.star.length
  | .nsw pfx => ((mapGet st.ns pfx).map List.length).getD 0
  | .exactK => ((mapGet st.exact event).map List.length).getD 0

/-- `eventNames()`: exact keys in insertion order. -/
def eventNames (st : EState) : List Key :=
  st.exact.map (·.1)

/-- `clear()`: empty the three tables (the `waitFor` bookkeeping fields
belong to the pending promise, not to the tables). -/
def clear (st : EState) : EState :=
  { st with exact := [], ns := [], star := [] }

/-- The arguments a handler is called with during dispatch: exact and
namespace handlers get the payload (or no argument for payload-less
emits); global handlers get the originating key and, if present, the
payload. -/
inductive CallArgs where
  | noArg
  | payloadOnly (p : Value)
  | keyOnly (k : Key)
  | keyPayload (k : Key) (p : Value)
deriving DecidableEq, Repr

/-- Arguments for an exact or namespace handler (`fn()` / `fn(payload)`). -/
def payloadArgs : Option Value → CallArgs
  | none => .noArg
  | some p => .payloadOnly p

/-- Arguments for a global handler (`fn(event)` / `fn(event, payload)`). -/
def starArgs (k : Key) : Option Value → CallArgs
  | none => .keyOnly k
  | some p => .keyPayload k p

/-- The payload a `waitFor` listener reads from its arguments. -/
def payloadOf : CallArgs → Option Value
  | .noArg => none
  | .payloadOnly p => some p
  | .keyOnly _ => none
  | .keyPayload _ p => some p

/-- A re-entrant emitter operation performed by a plain handler during
its invocation, or a throw. -/
inductive Act where
  | aOn (event : Key) (h : HandlerId)
  | aOff (event : Key) (h : HandlerId)
  | aClear
  | aThrow (v : Value)
  | aEmitP (event : Key) (p : Value)
  | aEmitV (event : Key)

/-- Outcome of the filter of a `waitFor` listener on a given payload. -/
inductive FilterRes where
  | fpass
  | ffail
  | fthrow (e : Value)

/-- What a handler identity does when invoked.

* `plain acts`: a user handler running the given emitter operations.
* `onceExact` / `onceNs` / `onceStar`: the three wrapper closures built
  by `once`; each removes itself from its table (via the same paths as
  `off`) and then invokes the wrapped handler with the arguments it
  received. Removal happens before the inner call, as in the source.
* `waitL event filter`: the temporary listener closure of
  `waitFor(event, …)` — `try { if (filter && !filter(p)) return;
  cleanup(); resolve(p); } catch (e) { cleanup(); reject(e); }`. -/
inductive Behavior where
  | plain (acts : List Act)
  | onceExact (event : Key) (inner : HandlerId)
  | onceNs (pfx : List Char) (inner : HandlerId)
  | onceStar (inner : HandlerId)
  | waitL (event : Key) (filter : Option Value → FilterRes)

/-- Assignment of behaviors to handler identities. -/
abbrev Env := HandlerId → Behavior

/-- How a dispatch step ended: normal return, a thrown value propagating
(the source never catches handler errors inside `emit`), or artificial
fuel exhaustion of the interpreter. -/
inductive Outcome where
  | ok
  | threw (e : ErrVal)
  | fuelOut
deriving DecidableEq, Repr

/-- Result of an interpreted step: the state after it, the ordered trace
of handler invocations it performed, and how it ended. -/
structure Res where
  st : EState
  tr : List (HandlerId × CallArgs)
  out : Outcome
deriving DecidableEq, Repr

/-- The `cleanup` closure of a pending `waitFor` on key `event` with
listener identity `w`: runs the recorded teardowns (detach abort
observer, clear the timer, unregister the listener) once; later calls
are no-ops because the closure replaces itself with an empty function. -/
def doCleanup (st : EState) (event : Key) (w : HandlerId) : EState :=
  if st.cleaned then st
  else
    let st1 := off st event w
    { st1 with timerArmed := false, cleaned := true }

/-- `resolve(p)`: settles the promise unless it is already settled. -/
def settleOk (st : EState) (v : Option Value) : EState :=
  match st.settled with
  | some _ => st
  | none => { st with settled := some (.resolved v) }

/-- `reject(e)`: settles the promise unless it is already settled. -/
def settleErr (st : EState) (e : ErrVal) : EState :=
  match st.settled with
  | some _ => st
  | none => { st with settled := some (.rejected e) }

/-- Sequence two dispatch steps: when the first returns normally, run
the continuation from its state and concatenate the traces; a throw or
fuel exhaustion short-circuits. -/
def Res.seq (r : Res) (k : EState → Res) : Res :=
  match r.out with
  | .ok =>
    let r2 := k r.st
    ⟨r2.st, r.tr ++ r2.tr, r2.out⟩
  | _ => r

mutual

/-- Invoke one handler with the given arguments: record the call, then
run the behavior the environment assigns to its identity. -/
def invokeH (env : Env) : Nat → EState → HandlerId → CallArgs → Res
  | 0, st, _, _ => ⟨st, [], .fuelOut⟩
  | fuel + 1, st, h, args =>
    match env h with
    | .plain acts =>
      let r := runActs env fuel st acts
      ⟨r.st, (h, args) :: r.tr, r.out⟩
    | .onceExact event inner =>
      let st1 := { st with exact := removeFromMap st.exact event h }
      let r := invokeH env fuel st1 inner args
      ⟨r.st, (h, args) :: r.tr, r.out⟩
    | .onceNs pfx inner =>
      let st1 := { st with ns := removeFromMap st.ns pfx h }
      let r := invokeH env fuel st1 inner args
      ⟨r.st, (h, args) :: r.tr, r.out⟩
    | .onceStar inner =>
      let st1 := { st with star := setDel st.star h }
      let r := invokeH env fuel st1 inner args
      ⟨r.st, (h, args) :: r.tr, r.out⟩
    | .waitL event filter =>
      match filter (payloadOf args) with
      | .ffail => ⟨st, [(h, args)], .ok⟩
      | .fpass => ⟨settleOk (doCleanup st event h) (payloadOf args), [(h, args)], .ok⟩
      | .fthrow e => ⟨settleErr (doCleanup st event h) (.thrown e), [(h, args)], .ok⟩
termination_by fuel _ _ _ => (fuel, 1, 0)

/-- Run the body of a plain handler: the listed operations in order,
stopping at a throw (or at fuel exhaustion inside a re-entrant emit). -/
def runActs (env : Env) : Nat → EState → List Act → Res
  | _, st, [] => ⟨st, [], .ok⟩
  | fuel, st, a :: rest =>
    (applyAct env fuel st a).seq fun st' => runActs env fuel st' rest
termination_by fuel _ acts => (fuel, 3, acts.length)

/-- One emitter operation performed inside a handler. -/
def applyAct (env : Env) : Nat → EState → Act → Res
  | _, st, .aOn event h => ⟨onE st event h, [], .ok⟩
  | _, st, .aOff event h => ⟨off st event h, [], .ok⟩
  | _, st, .aClear => ⟨clear st, [], .ok⟩
  | _, st, .aThrow v => ⟨st, [], .threw (.thrown v)⟩
  | 0, st, .aEmitP _ _ => ⟨st, [], .fuelOut⟩
  | fuel + 1, st, .aEmitP event p => emit env fuel st event (some p)
  | 0, st, .aEmitV _ => ⟨st, [], .fuelOut⟩
  | fuel + 1, st, .aEmitV event => emit env fuel st event none
termination_by fuel _ _ => (fuel, 2, 0)

/-- Iterate a snapshot (`Array.from(set)`) of handlers, threading the
state; a propagating throw stops the remaining calls. -/
def invokeList (env : Env) : Nat → EState → List HandlerId → CallArgs → Res
  | _, st, [], _ => ⟨st, [], .ok⟩
  | fuel, st, h :: rest, args =>
    (invokeH env fuel st h args).seq fun st' => invokeList env fuel st' rest args
termination_by fuel _ hs _ => (fuel, 2, hs.length)

/-- Phase 2 of `emit`: for each namespace prefix in order, look up the
set in the *current* table (`ns.get(prefix)` happens inside the loop)
and, if present, snapshot and invoke it. -/
def nsPhase (env : Env) : Nat → EState → List (List Char) → Option Value → Res
  | _, st, [], _ => ⟨st, [], .ok⟩
  | fuel, st, q :: rest, p =>
    match mapGet st.ns q with
    | none => nsPhase env fuel st rest p
    | some hs =>
      (invokeList env fuel st hs (payloadArgs p)).seq fun st' =>
        nsPhase env fuel st' rest p
termination_by fuel _ qs _ => (fuel, 4, qs.length)

/-- `emit(event, payload?)`: exact handlers of the key, then namespace
handlers of each prefix (string keys only), then global handlers, each
tier snapshotted right before iterating it. -/
def emit (env : Env) : Nat → EState → Key → Option Value → Res
  | 0, st, _, _ => ⟨st, [], .fuelOut⟩
  | fuel + 1, st, event, p =>
    (match mapGet st.exact event with
      | none => (⟨st, [], .ok⟩ : Res)
      | some hs => invokeList env fuel st hs (payloadArgs p)).seq fun st1 =>
    (match event with
      | .str s => nsPhase env fuel st1 (getNamespacePrefixes s) p
      | _ => (⟨st1, [], .ok⟩ : Res)).seq fun st2 =>
    if st2.star = [] then (⟨st2, [], .ok⟩ : Res)
    else invokeList env fuel st2 st2.star (starArgs event p)
termination_by fuel _ _ _ => (fuel, 5, 0)

end

/-- The synchronous body of `waitFor(event, options)` with listener
identity `w`: register the listener, arm the timer when `timeoutMs` is
given, and, when the signal is already aborted, run `cleanup()` and
reject with `Error('Aborted')` immediately. `signal` is `none` when no
signal option was passed, otherwise `some aborted`. -/
def waitForSync (st : EState) (event : Key) (w : HandlerId)
    (timeoutMs : Option Nat) (signal : Option Bool) : EState :=
  let st0 := { st with settled := none, cleaned := false, timerArmed := false }
  let st1 := onE st0 event w
  let st2 := if timeoutMs.isSome then { st1 with timerArmed := true } else st1
  match signal with
  | some true => settleErr (doCleanup st2 event w) (.errorMsg "Aborted".toList)
  | _ => st2

/-- An environment in which every handler records its call and performs
no emitter operation. -/
def envPlain : Env := fun _ => Behavior.plain []

/-- A namespace handler `2` registered on `user.*` and a namespace
handler `4` registered on `user:*`. -/
def nsExample : EState :=
  onE (onE emptyState (Key.str "user.*".toList) 2) (Key.str "user:*".toList) 4

/-- The environment of the C1 counterexample: handler `1` registers the
fresh handler `3` on the namespace wildcard `a.*` during its own
invocation; every other handler does nothing. -/
def envC1 : Env := fun h =>
  if h = 1 then .plain [.aOn (Key.str "a.*".toList) 3] else .plain []

/-- The state of the C1 counterexample: only handler `1` is registered,
as an exact handler of `a.b`. -/
def stC1 : EState := onE emptyState (Key.str "a.b".toList) 1

/-- The environment of the C1 amended witness. -/
def envC1w : Env := fun h =>
  if h = 1 then .plain [.aOff (Key.str "k".toList) 2] else .plain []

/-- The environment of the C4 witness: `10` is the `once` wrapper
around handler `11`. -/
def envOnce : Env := fun i =>
  if i = 10 then .onceExact (Key.str "ping".toList) 11 else .plain []

/-- The environment of the C10 witness: the three `once` wrappers `10`
(exact key `ping`), `12` (global wildcard) and `14` (namespace prefix
`user.`) around the handlers `11`, `13` and `15` respectively. -/
def envC10 : Env := fun i =>
  if i = 10 then .onceExact (Key.str "ping".toList) 11
  else if i = 12 then .onceStar 13
  else if i = 14 then .onceNs "user.".toList 15
  else .plain []

/-- Well-formedness of a registration table, as maintained by the
source: every stored set is non-empty (empty sets are pruned by
`removeFromMap`), and keys are unique (JS `Map` semantics). -/
def tableWF {α : Type} (m : List (α × List HandlerId)) : Prop :=
  (∀ e ∈ m, e.2 ≠ []) ∧ (m.map Prod.fst).Nodup

/-- The dispatcher invariant: both keyed tables are well-formed, and the
exact table only ever holds keys that classify as exact (`on`, `once`
and `waitFor` route `*` and namespace wildcards elsewhere). -/
def Inv (st : EState) : Prop :=
  tableWF st.exact ∧ tableWF st.ns ∧ ∀ e ∈ st.exact, classify e.1 = KClass.exactK

instance (st : EState) : Decidable (Inv st) := by
  unfold Inv tableWF
  infer_instance

/-- The environment of the C9 witness: `20` is the `waitFor` listener
on `ping` whose filter always throws `7`; `21` is a plain handler. -/
def envC9 : Env := fun i =>
  if i = 20 then .waitL (Key.str "ping".toList) (fun _ => .fthrow 7) else .plain []

/-- The handler set a key resolves to, per the `on`/`off` classification. -/
def registeredSet (st : EState) (K : Key) : List HandlerId :=
  match classify K with
  | .star => st.star
  | .nsw q => getSet st.ns q
  | .exactK => getSet st.exact K

/-- The environment of the C6 counterexample: handler `30` throws the
value `7`; handler `31` records only. -/
def envC6 : Env := fun h =>
  if h = 30 then .plain [.aThrow 7] else .plain []

/-! ### Basic unfolding lemmas for the interpreter -/

theorem Res.seq_mk_ok (st : EState) (tr : List (HandlerId × CallArgs)) (k : EState → Res) :
    Res.seq ⟨st, tr, .ok⟩ k = ⟨(k st).st, tr ++ (k st).tr, (k st).out⟩ := rfl

theorem Res.seq_mk_stop (st : EState) (tr : List (HandlerId × CallArgs)) (o : Outcome)
    (ho : o ≠ .ok) (k : EState → Res) : Res.seq ⟨st, tr, o⟩ k = ⟨st, tr, o⟩ := by
  cases o with
  | ok => exact absurd rfl ho
  | threw e => rfl
  | fuelOut => rfl

@[simp] theorem mapGet_nil {α β : Type} [DecidableEq α] (k : α) :
    mapGet ([] : List (α × β)) k = none := rfl

@[simp] theorem getSet_nil {α : Type} [DecidableEq α] (k : α) :
    getSet ([] : List (α × List HandlerId)) k = [] := rfl

theorem runActs_nil (env : Env) (fuel : Nat) (st : EState) :
    runActs env fuel st [] = ⟨st, [], .ok⟩ := by
  simp [runActs]

theorem invokeList_nil (env : Env) (fuel : Nat) (st : EState) (args : CallArgs) :
    invokeList env fuel st [] args = ⟨st, [], .ok⟩ := by
  simp [invokeList]

/-- A handler that does nothing: it is recorded in the trace and leaves
the state alone. -/
theorem invokeH_plain_nil (env : Env) (f : Nat) (st : EState) (h : HandlerId)
    (args : CallArgs) (he : env h = .plain []) :
    invokeH env (f + 1) st h args = ⟨st, [(h, args)], .ok⟩ := by
  simp [invokeH, he, runActs_nil]

/-- A snapshot of do-nothing handlers is invoked in list order, each one
once, with the given arguments. -/
theorem invokeList_plain (env : Env) (f : Nat) (args : CallArgs) :
    ∀ (hs : List HandlerId) (st : EState), (∀ h ∈ hs, env h = .plain []) →
      invokeList env (f + 1) st hs args = ⟨st, hs.map (fun h => (h, args)), .ok⟩ := by
  intro hs
  induction hs with
  | nil => intro st _; simp [invokeList]
  | cons h rest ih =>
    intro st hall
    rw [invokeList, invokeH_plain_nil env f st h args (hall h (by simp)),
      Res.seq_mk_ok, ih st (fun h' hm => hall h' (by simp [hm]))]
    simp

/-- The namespace phase over an empty namespace table does nothing. -/
theorem nsPhase_ns_empty (env : Env) (fuel : Nat) (p : Option Value) :
    ∀ (qs : List (List Char)) (st : EState), st.ns = [] →
      nsPhase env fuel st qs p = ⟨st, [], .ok⟩ := by
  intro qs
  induction qs with
  | nil => intro st _; simp [nsPhase]
  | cons q rest ih =>
    intro st hns
    rw [nsPhase, hns]
    exact ih st hns

/-- The namespace phase with do-nothing handlers: each prefix contributes
its registered set in order, invoked with the payload only. -/
theorem nsPhase_plain (env : Env) (f : Nat) (p : Option Value)
    (hall : ∀ h, env h = .plain []) :
    ∀ (qs : List (List Char)) (st : EState),
      nsPhase env (f + 1) st qs p =
        ⟨st, qs.flatMap (fun q => (getSet st.ns q).map (fun h => (h, payloadArgs p))),
          .ok⟩ := by
  intro qs
  induction qs with
  | nil => intro st; simp [nsPhase]
  | cons q rest ih =>
    intro st
    rw [nsPhase]
    cases hq : mapGet st.ns q with
    | none => rw [ih st]; simp [getSet, hq]
    | some hs =>
      simp only [invokeList_plain env f (payloadArgs p) hs st (fun h _ => hall h),
        Res.seq_mk_ok, ih st]
      simp [getSet, hq]

/-- Dispatch with do-nothing handlers: the trace is the exact snapshot,
then the namespace sets of each prefix in shortest-to-longest order (for
string keys only), then the global set; exact and namespace handlers get
the payload, global handlers get the key and the payload; the state is
unchanged. -/
theorem emit_plain (env : Env) (f : Nat) (st : EState) (event : Key) (p : Option Value)
    (hall : ∀ h, env h = .plain []) :
    emit env (f + 2) st event p =
      ⟨st,
        (getSet st.exact event).map (fun h => (h, payloadArgs p)) ++
        ((match event with
          | .str s => (getNamespacePrefixes s).flatMap
              (fun q => (getSet st.ns q).map (fun h => (h, payloadArgs p)))
          | _ => []) ++
        st.star.map (fun h => (h, starArgs event p))), .ok⟩ := by
  rw [show f + 2 = (f + 1) + 1 from rfl, emit]
  have hexact :
      (match mapGet st.exact event with
        | none => (⟨st, [], .ok⟩ : Res)
        | some hs => invokeList env (f + 1) st hs (payloadArgs p)) =
        ⟨st, (getSet st.exact event).map (fun h => (h, payloadArgs p)), .ok⟩ := by
    cases hx : mapGet st.exact event with
    | none => simp [getSet, hx]
    | some hs =>
      simp only [invokeList_plain env f (payloadArgs p) hs st (fun h _ => hall h)]
      simp [getSet, hx]
  rw [hexact, Res.seq_mk_ok]
  have hns :
      (match event with
        | .str s => nsPhase env (f + 1) st (getNamespacePrefixes s) p
        | _ => (⟨st, [], .ok⟩ : Res)) =
        ⟨st,
          (match event with
            | .str s => (getNamespacePrefixes s).flatMap
                (fun q => (getSet st.ns q).map (fun h => (h, payloadArgs p)))
            | _ => []), .ok⟩ := by
    cases event with
    | str s => simp only [nsPhase_plain env f p hall (getNamespacePrefixes s) st]
    | num n => rfl
    | sym n => rfl
  rw [hns, Res.seq_mk_ok]
  by_cases hstar : st.star = []
  · cases event <;> simp [hstar]
  · simp only [if_neg hstar]
    rw [invokeList_plain env f (starArgs event p) st.star st (fun h _ => hall h)]
    cases event <;> simp

/-- Membership in `getNamespacePrefixes`: exactly the take-prefixes up to
and including each separator occurrence. -/
theorem getNamespacePrefixes_mem (s q : List Char) :
    q ∈ getNamespacePrefixes s ↔
      ∃ i, i < s.length ∧ (s.get? i = some '.' ∨ s.get? i = some ':') ∧
        q = s.take (i + 1) := by
  simp only [getNamespacePrefixes, List.mem_filterMap, List.mem_range]
  constructor
  · rintro ⟨i, hi, hf⟩
    by_cases hc : s.get? i = some '.' ∨ s.get? i = some ':'
    · rw [if_pos hc] at hf
      exact ⟨i, hi, hc, (Option.some.inj hf).symm⟩
    · rw [if_neg hc] at hf
      cases hf
  · rintro ⟨i, hi, hc, rfl⟩
    exact ⟨i, hi, by rw [if_pos hc]⟩

/-- The prefixes are produced shortest to longest (strictly increasing
lengths, hence in particular no duplicates). -/
theorem getNamespacePrefixes_sorted (s : List Char) :
    (getNamespacePrefixes s).Pairwise (fun a b => a.length < b.length) := by
  unfold getNamespacePrefixes
  refine List.Pairwise.filterMap _ ?_ (List.pairwise_lt_range s.length)
  intro i j hij q hq q' hq'
  by_cases hc : s.get? i = some '.' ∨ s.get? i = some ':'
  · rw [if_pos hc, Option.mem_def] at hq
    by_cases hc' : s.get? j = some '.' ∨ s.get? j = some ':'
    · rw [if_pos hc', Option.mem_def] at hq'
      have hi : i < s.length := by
        rcases hc with h | h <;> exact List.get?_eq_some.mp h |>.1
      have hj : j < s.length := by
        rcases hc' with h | h <;> exact List.get?_eq_some.mp h |>.1
      rw [← Option.some.inj hq, ← Option.some.inj hq']
      simp only [List.length_take]
      omega
    · rw [if_neg hc'] at hq'
      cases hq'
  · rw [if_neg hc] at hq
    cases hq

/-- C2 (tier ordering): dispatching a string key to non-mutating
handlers invokes, in order, the exact snapshot of the key, then the
handlers of each namespace prefix shortest-to-longest, then the global
handlers; exact and namespace handlers receive the payload only, global
handlers receive the originating key and the payload. -/
theorem C2_tier_ordering (env : Env) (f : Nat) (st : EState) (s : List Char)
    (p : Value) (hall : ∀ h, env h = .plain []) :
    emit env (f + 2) st (Key.str s) (some p) =
      ⟨st,
        (getSet st.exact (Key.str s)).map (fun h => (h, CallArgs.payloadOnly p)) ++
        (getNamespacePrefixes s).flatMap
          (fun q => (getSet st.ns q).map (fun h => (h, CallArgs.payloadOnly p))) ++
        st.star.map (fun h => (h, CallArgs.keyPayload (Key.str s) p)), .ok⟩ := by
  have h := emit_plain env f st (Key.str s) (some p) hall
  simpa [payloadArgs, starArgs, List.append_assoc] using h

/-- Witness for C2: an exact handler on `user.created`, a namespace
handler on `user.*` and a global handler on `*` fire in exactly that
order with the documented argument shapes. -/
theorem C2_tier_ordering_witness :
    emit envPlain 2 (onE (onE (onE emptyState (Key.str "user.created".toList) 1)
        (Key.str "user.*".toList) 2) (Key.str "*".toList) 3)
      (Key.str "user.created".toList) (some 5) =
      ⟨onE (onE (onE emptyState (Key.str "user.created".toList) 1)
        (Key.str "user.*".toList) 2) (Key.str "*".toList) 3,
       [(1, CallArgs.payloadOnly 5), (2, CallArgs.payloadOnly 5),
        (3, CallArgs.keyPayload (Key.str "user.created".toList) 5)], .ok⟩ := by
  rw [show (2 : Nat) = 0 + 2 from rfl,
    C2_tier_ordering envPlain 0 _ "user.created".toList 5 (fun _ => rfl)]
  decide

/-- C3 (namespace prefix matching): the prefixes considered for a string
key are exactly the substrings up to and including each `.` or `:`
occurrence, visited shortest-to-longest; a `user.*` handler fires for
`user.created` and `user.deleted` but not `user:login`, a `user:*`
handler fires for `user:login` but not `user.created`; number and symbol
keys trigger no namespace handlers. -/
theorem C3_prefix_matching :
    (∀ s q, q ∈ getNamespacePrefixes s ↔
      ∃ i, i < s.length ∧ (s.get? i = some '.' ∨ s.get? i = some ':') ∧
        q = s.take (i + 1)) ∧
    (∀ s, (getNamespacePrefixes s).Pairwise (fun a b => a.length < b.length)) ∧
    (∀ (env : Env) (f : Nat) (st : EState) (n : Int) (p : Option Value),
      (∀ h, env h = .plain []) →
      emit env (f + 2) st (Key.num n) p =
        ⟨st, (getSet st.exact (Key.num n)).map (fun h => (h, payloadArgs p)) ++
          st.star.map (fun h => (h, starArgs (Key.num n) p)), .ok⟩) ∧
    (∀ (env : Env) (f : Nat) (st : EState) (m : Nat) (p : Option Value),
      (∀ h, env h = .plain []) →
      emit env (f + 2) st (Key.sym m) p =
        ⟨st, (getSet st.exact (Key.sym m)).map (fun h => (h, payloadArgs p)) ++
          st.star.map (fun h => (h, starArgs (Key.sym m) p)), .ok⟩) ∧
    (emit envPlain 2 nsExample (Key.str "user.created".toList) (some 0)).tr =
      [(2, CallArgs.payloadOnly 0)] ∧
    (emit envPlain 2 nsExample (Key.str "user.deleted".toList) (some 0)).tr =
      [(2, CallArgs.payloadOnly 0)] ∧
    (emit envPlain 2 nsExample (Key.str "user:login".toList) (some 0)).tr =
      [(4, CallArgs.payloadOnly 0)] := by
  refine ⟨getNamespacePrefixes_mem, getNamespacePrefixes_sorted, ?_, ?_, ?_, ?_, ?_⟩
  · intro env f st n p hall
    simpa using emit_plain env f st (Key.num n) p hall
  · intro env f st m p hall
    simpa using emit_plain env f st (Key.sym m) p hall
  · rw [show (2 : Nat) = 0 + 2 from rfl,
      emit_plain envPlain 0 nsExample (Key.str "user.created".toList) (some 0) (fun _ => rfl)]
    decide
  · rw [show (2 : Nat) = 0 + 2 from rfl,
      emit_plain envPlain 0 nsExample (Key.str "user.deleted".toList) (some 0) (fun _ => rfl)]
    decide
  · rw [show (2 : Nat) = 0 + 2 from rfl,
      emit_plain envPlain 0 nsExample (Key.str "user:login".toList) (some 0) (fun _ => rfl)]
    decide

/-- Witness for C3: dispatching the number key `7` on an emitter that
has a `a.*` namespace handler invokes no handler at all. -/
theorem C3_prefix_matching_witness :
    emit envPlain 2 (onE emptyState (Key.str "a.*".toList) 9) (Key.num 7) (some 1) =
      ⟨onE emptyState (Key.str "a.*".toList) 9, [], .ok⟩ := by
  rw [show (2 : Nat) = 0 + 2 from rfl,
    C3_prefix_matching.2.2.1 envPlain 0 (onE emptyState (Key.str "a.*".toList) 9) 7
      (some 1) (fun _ => rfl)]
  decide

/-- A handler whose body performs a single `off` call. -/
theorem invokeH_plain_off (env : Env) (f : Nat) (st : EState) (h : HandlerId)
    (args : CallArgs) (k : Key) (e : HandlerId) (he : env h = .plain [.aOff k e]) :
    invokeH env (f + 1) st h args = ⟨off st k e, [(h, args)], .ok⟩ := by
  simp [invokeH, he, runActs, applyAct, Res.seq]

/-- Unfold `emit` when the exact table has an entry for the key. -/
theorem emit_unfold_exact (env : Env) (f : Nat) (st : EState) (event : Key)
    (p : Option Value) (hs : List HandlerId) (hx : mapGet st.exact event = some hs) :
    emit env (f + 1) st event p =
      (invokeList env f st hs (payloadArgs p)).seq fun st1 =>
        (match event with
          | .str s => nsPhase env f st1 (getNamespacePrefixes s) p
          | _ => (⟨st1, [], .ok⟩ : Res)).seq fun st2 =>
        if st2.star = [] then (⟨st2, [], .ok⟩ : Res)
        else invokeList env f st2 st2.star (starArgs event p) := by
  rw [emit]
  simp only [hx]

/-- The namespace and global phases do nothing when both tables are
empty at that point, whatever the key is. -/
theorem tailPhases_trivial (env : Env) (f : Nat) (event : Key) (p : Option Value)
    (st1 : EState) (hns : st1.ns = []) (hstar : st1.star = []) :
    Res.seq
      (match event with
        | .str s => nsPhase env f st1 (getNamespacePrefixes s) p
        | _ => (⟨st1, [], .ok⟩ : Res))
      (fun st2 =>
        if st2.star = [] then (⟨st2, [], .ok⟩ : Res)
        else invokeList env f st2 st2.star (starArgs event p)) = ⟨st1, [], .ok⟩ := by
  cases event with
  | str s =>
    simp only [nsPhase_ns_empty env f p (getNamespacePrefixes s) st1 hns, Res.seq_mk_ok]
    simp [hstar]
  | num n => simp only [Res.seq_mk_ok]; simp [hstar]
  | sym n => simp only [Res.seq_mk_ok]; simp [hstar]

/-- Unfold `invokeH` at any non-zero fuel (useful when the fuel is a
numeral rather than a syntactic successor). -/
theorem invokeH_pos (env : Env) (fuel : Nat) (st : EState) (h : HandlerId)
    (args : CallArgs) (hf : fuel ≠ 0) :
    invokeH env fuel st h args =
      match env h with
      | .plain acts =>
        let r := runActs env (fuel - 1) st acts
        ⟨r.st, (h, args) :: r.tr, r.out⟩
      | .onceExact event inner =>
        let st1 := { st with exact := removeFromMap st.exact event h }
        let r := invokeH env (fuel - 1) st1 inner args
        ⟨r.st, (h, args) :: r.tr, r.out⟩
      | .onceNs pfx inner =>
        let st1 := { st with ns := removeFromMap st.ns pfx h }
        let r := invokeH env (fuel - 1) st1 inner args
        ⟨r.st, (h, args) :: r.tr, r.out⟩
      | .onceStar inner =>
        let st1 := { st with star := setDel st.star h }
        let r := invokeH env (fuel - 1) st1 inner args
        ⟨r.st, (h, args) :: r.tr, r.out⟩
      | .waitL event filter =>
        match filter (payloadOf args) with
        | .ffail => ⟨st, [(h, args)], .ok⟩
        | .fpass => ⟨settleOk (doCleanup st event h) (payloadOf args), [(h, args)], .ok⟩
        | .fthrow e =>
          ⟨settleErr (doCleanup st event h) (.thrown e), [(h, args)], .ok⟩ := by
  cases fuel with
  | zero => exact absurd rfl hf
  | succ f => rw [invokeH]; simp

/-- Counterexample to C1 as stated: handler `3` is registered nowhere
when the emit of `a.b` starts (second and third conjuncts), yet the very
same emit invokes it, because handler `1` registers it on `a.*` and the
namespace tier's lookup happens only after the exact tier has run. A
registration performed by a handler during an emit therefore *can*
change the set of handlers invoked by that in-progress emit. -/
theorem C1_counterexample :
    (emit envC1 9 stC1 (Key.str "a.b".toList) (some 5)).tr =
      [(1, CallArgs.payloadOnly 5), (3, CallArgs.payloadOnly 5)] ∧
    listenerCount stC1 (Key.str "a.*".toList) = 0 ∧
    (∀ q, getSet stC1.ns q = []) ∧ stC1.star = [] ∧
    getSet stC1.exact (Key.str "a.b".toList) = [1] := by
  refine ⟨?_, by decide, fun q => rfl, rfl, by decide⟩
  have hp : getNamespacePrefixes ['a', '.', 'b'] = [['a', '.']] := by decide
  rw [show (9 : Nat) = 8 + 1 from rfl,
    emit_unfold_exact envC1 8 stC1 (Key.str "a.b".toList) (some 5) [1] (by decide)]
  simp [payloadArgs, invokeList, invokeH_pos, envC1, runActs, applyAct, Res.seq, hp,
    nsPhase, onE, classify, isNamespaceWildcardKey, wildcardPrefixFromKey, addToMap,
    getSet, mapGet, mapSet, setAdd, stC1, emptyState, List.isSuffixOf]

/-- C1 amended (same-set snapshot isolation): for every exact key `K`
with handler set `[h1, h2]`, when `h1` unregisters `h2` for `K` during
its own invocation inside an emit of `K`, that emit still invokes `h2`
(the exact set was snapshotted before iteration) and a subsequent emit
of `K` invokes only `h1`. Mutation during an emit cannot change the
handlers invoked from a set whose snapshot was already taken; tiers
looked up later in the same emit (namespace, global — absent here) do
observe mutations, as `C1_counterexample` shows. -/
theorem C1_amended (env : Env) (f : Nat) (K : Key) (h1 h2 : HandlerId) (p : Value)
    (hK : classify K = .exactK) (hne : h1 ≠ h2)
    (he1 : env h1 = .plain [.aOff K h2]) (he2 : env h2 = .plain []) :
    emit env (f + 2) (⟨[(K, [h1, h2])], [], [], none, false, false⟩ : EState) K (some p) =
      ⟨⟨[(K, [h1])], [], [], none, false, false⟩,
        [(h1, CallArgs.payloadOnly p), (h2, CallArgs.payloadOnly p)], .ok⟩ ∧
    emit env (f + 2) (⟨[(K, [h1])], [], [], none, false, false⟩ : EState) K (some p) =
      ⟨⟨[(K, [h1])], [], [], none, false, false⟩,
        [(h1, CallArgs.payloadOnly p)], .ok⟩ := by
  have hoff1 : off (⟨[(K, [h1, h2])], [], [], none, false, false⟩ : EState) K h2 =
      ⟨[(K, [h1])], [], [], none, false, false⟩ := by
    simp [off, hK, removeFromMap, mapGet, setDel, mapSet, mapDelete, hne]
  have hoff2 : off (⟨[(K, [h1])], [], [], none, false, false⟩ : EState) K h2 =
      ⟨[(K, [h1])], [], [], none, false, false⟩ := by
    simp [off, hK, removeFromMap, mapGet, setDel, mapSet, mapDelete, hne]
  constructor
  · rw [show f + 2 = (f + 1) + 1 from rfl,
      emit_unfold_exact env (f + 1) _ K (some p) [h1, h2] (by simp [mapGet])]
    cases K with
    | str s =>
      simp [payloadArgs, invokeList, invokeH, he1, he2, runActs, applyAct, Res.seq,
        invokeList_nil, hoff1, nsPhase_ns_empty]
    | num n =>
      simp [payloadArgs, invokeList, invokeH, he1, he2, runActs, applyAct, Res.seq,
        invokeList_nil, hoff1]
    | sym n =>
      simp [payloadArgs, invokeList, invokeH, he1, he2, runActs, applyAct, Res.seq,
        invokeList_nil, hoff1]
  · rw [show f + 2 = (f + 1) + 1 from rfl,
      emit_unfold_exact env (f + 1) _ K (some p) [h1] (by simp [mapGet])]
    cases K with
    | str s =>
      simp [payloadArgs, invokeList, invokeH, he1, he2, runActs, applyAct, Res.seq,
        invokeList_nil, hoff2, nsPhase_ns_empty]
    | num n =>
      simp [payloadArgs, invokeList, invokeH, he1, he2, runActs, applyAct, Res.seq,
        invokeList_nil, hoff2]
    | sym n =>
      simp [payloadArgs, invokeList, invokeH, he1, he2, runActs, applyAct, Res.seq,
        invokeList_nil, hoff2]

/-- Witness for the amended C1 at key `k`, handlers `1` and `2`. -/
theorem C1_amended_witness :
    emit envC1w 2 (⟨[(Key.str "k".toList, [1, 2])], [], [], none, false, false⟩ : EState)
        (Key.str "k".toList) (some 5) =
      ⟨⟨[(Key.str "k".toList, [1])], [], [], none, false, false⟩,
        [(1, CallArgs.payloadOnly 5), (2, CallArgs.payloadOnly 5)], .ok⟩ ∧
    emit envC1w 2 (⟨[(Key.str "k".toList, [1])], [], [], none, false, false⟩ : EState)
        (Key.str "k".toList) (some 5) =
      ⟨⟨[(Key.str "k".toList, [1])], [], [], none, false, false⟩,
        [(1, CallArgs.payloadOnly 5)], .ok⟩ :=
  C1_amended envC1w 0 (Key.str "k".toList) 1 2 5 (by decide) (by decide) rfl rfl

/-- Unfold `emit` when the exact table has no entry for the key. -/
theorem emit_unfold_noexact (env : Env) (f : Nat) (st : EState) (event : Key)
    (p : Option Value) (hx : mapGet st.exact event = none) :
    emit env (f + 1) st event p =
      (match event with
        | .str s => nsPhase env f st (getNamespacePrefixes s) p
        | _ => (⟨st, [], .ok⟩ : Res)).seq fun st2 =>
      if st2.star = [] then (⟨st2, [], .ok⟩ : Res)
      else invokeList env f st2 st2.star (starArgs event p) := by
  rw [emit]
  simp only [hx, Res.seq_mk_ok]
  rw [Res.seq]
  cases ho : ((match event with
      | .str s => nsPhase env f st (getNamespacePrefixes s) p
      | _ => (⟨st, [], .ok⟩ : Res)).seq fun st2 =>
      if st2.star = [] then (⟨st2, [], .ok⟩ : Res)
      else invokeList env f st2 st2.star (starArgs event p)) with
  | mk st' tr' o' => simp

/-- `emit` on a state whose three tables are all empty invokes nothing
and changes nothing. -/
theorem emit_empty_tables (env : Env) (f : Nat) (st : EState) (event : Key)
    (p : Option Value) (hx : st.exact = []) (hns : st.ns = []) (hstar : st.star = []) :
    emit env (f + 1) st event p = ⟨st, [], .ok⟩ := by
  rw [emit_unfold_noexact env f st event p (by rw [hx]; rfl)]
  cases event with
  | str s =>
    simp only [nsPhase_ns_empty env f p (getNamespacePrefixes s) st hns, Res.seq_mk_ok]
    simp [hstar]
  | num n => simp only [Res.seq_mk_ok]; simp [hstar]
  | sym n => simp only [Res.seq_mk_ok]; simp [hstar]

/-- Walking the namespace phase when the namespace table holds exactly
one `once` wrapper `w` under prefix `q`: if `q` is among the visited
prefixes, the wrapper removes itself and the wrapped handler fires once;
otherwise nothing happens. -/
theorem nsPhase_once_walk (env : Env) (f : Nat) (p : Option Value) (q : List Char)
    (w h : HandlerId) (hw : env w = .onceNs q h) (hh : env h = .plain []) :
    ∀ (qs : List (List Char)) (st : EState), st.ns = [(q, [w])] →
      nsPhase env (f + 2) st qs p =
        if q ∈ qs then
          ⟨{ st with ns := [] }, [(w, payloadArgs p), (h, payloadArgs p)], .ok⟩
        else ⟨st, [], .ok⟩ := by
  intro qs
  induction qs with
  | nil => intro st hst; simp [nsPhase]
  | cons x rest ih =>
    intro st hst
    rw [show f + 2 = (f + 1) + 1 from rfl] at ih ⊢
    rw [nsPhase, hst]
    by_cases hx : x = q
    · subst hx
      have hget : mapGet [(x, [w])] x = some [w] := by simp [mapGet]
      simp only [hget]
      have hstep : invokeH env ((f + 1) + 1) st w (payloadArgs p) =
          ⟨{ st with ns := [] }, [(w, payloadArgs p), (h, payloadArgs p)], .ok⟩ := by
        simp [invokeH, hw, hh, runActs, removeFromMap, hst, mapGet, setDel, mapDelete]
      rw [invokeList, hstep, Res.seq_mk_ok, invokeList_nil, Res.seq_mk_ok,
        nsPhase_ns_empty env ((f + 1) + 1) p rest _ rfl]
      simp
    · have hqx : ¬ q = x := fun hqx => hx hqx.symm
      have hget : mapGet [(q, [w])] x = none := by simp [mapGet, hqx]
      simp only [hget]
      rw [ih st hst]
      simp [hqx]

/-- Emitting an exact key whose only registered handler is a `once`
wrapper: the wrapper removes itself, then the wrapped handler runs. -/
theorem emit_once_exact (env : Env) (f : Nat) (p : Value) (K : Key) (w h : HandlerId)
    (hw : env w = .onceExact K h) (hh : env h = .plain []) :
    emit env (f + 3) (⟨[(K, [w])], [], [], none, false, false⟩ : EState) K (some p) =
      ⟨emptyState, [(w, CallArgs.payloadOnly p), (h, CallArgs.payloadOnly p)], .ok⟩ := by
  rw [show f + 3 = ((f + 1) + 1) + 1 from rfl,
    emit_unfold_exact env ((f + 1) + 1) _ K (some p) [w] (by simp [mapGet])]
  cases K with
  | str s =>
    simp [payloadArgs, invokeList, invokeH, hw, hh, runActs, Res.seq, removeFromMap,
      mapGet, setDel, mapDelete, nsPhase_ns_empty, emptyState]
  | num n =>
    simp [payloadArgs, invokeList, invokeH, hw, hh, runActs, Res.seq, removeFromMap,
      mapGet, setDel, mapDelete, emptyState]
  | sym n =>
    simp [payloadArgs, invokeList, invokeH, hw, hh, runActs, Res.seq, removeFromMap,
      mapGet, setDel, mapDelete, emptyState]

/-- Emitting any key on a state whose only registered handler is a
global-wildcard `once` wrapper: the wrapper removes itself from the
star set, then the wrapped handler runs with the key and payload. -/
theorem emit_once_star (env : Env) (f : Nat) (p : Value) (E : Key) (w h : HandlerId)
    (hw : env w = .onceStar h) (hh : env h = .plain []) :
    emit env (f + 3) (⟨[], [], [w], none, false, false⟩ : EState) E (some p) =
      ⟨emptyState, [(w, CallArgs.keyPayload E p), (h, CallArgs.keyPayload E p)],
        .ok⟩ := by
  rw [show f + 3 = ((f + 1) + 1) + 1 from rfl,
    emit_unfold_noexact env ((f + 1) + 1)
      (⟨[], [], [w], none, false, false⟩ : EState) E (some p) rfl]
  cases E with
  | str s =>
    simp [starArgs, invokeList, invokeH, hw, hh, runActs, Res.seq, setDel,
      nsPhase_ns_empty, emptyState]
  | num n =>
    simp [starArgs, invokeList, invokeH, hw, hh, runActs, Res.seq, setDel, emptyState]
  | sym n =>
    simp [starArgs, invokeList, invokeH, hw, hh, runActs, Res.seq, setDel, emptyState]

/-- Emitting a string key one of whose namespace prefixes is `q`, on a
state whose only registered handler is a namespace `once` wrapper under
`q`: the wrapper removes itself, then the wrapped handler runs with the
payload. -/
theorem emit_once_ns (env : Env) (f : Nat) (p : Value) (q t : List Char)
    (w h : HandlerId) (hq : q ∈ getNamespacePrefixes t)
    (hw : env w = .onceNs q h) (hh : env h = .plain []) :
    emit env (f + 3) (⟨[], [(q, [w])], [], none, false, false⟩ : EState)
        (Key.str t) (some p) =
      ⟨emptyState, [(w, CallArgs.payloadOnly p), (h, CallArgs.payloadOnly p)],
        .ok⟩ := by
  have hwalk := nsPhase_once_walk env f (some p) q w h hw hh (getNamespacePrefixes t)
    (⟨[], [(q, [w])], [], none, false, false⟩ : EState) rfl
  rw [show f + 3 = ((f + 1) + 1) + 1 from rfl,
    emit_unfold_noexact env ((f + 1) + 1)
      (⟨[], [(q, [w])], [], none, false, false⟩ : EState) (Key.str t) (some p) rfl]
  simp only [show (f + 1) + 1 = f + 2 from rfl, hwalk, if_pos hq, Res.seq_mk_ok]
  simp [payloadArgs, emptyState]

/-- C4 (once semantics), covering the three tables `once` registers
into. In each scenario the wrapper identity `w` is fresh and wraps the
handler `h`. (1) Exact key: after `once(K, h)`, an emit of `K` invokes
`w` then `h` once and empties the table; a second emit invokes nothing.
(2) Re-entrancy: even when `h` itself re-emits `K`, the wrapped handler
runs exactly once, because the wrapper removed itself before invoking
`h`, so the re-entrant emit finds the exact table already empty.
(3) Global wildcard: `once('*', h)` fires once for the next emit of any
key, and not on the following emit. (4) Namespace wildcard: `once` on a
wildcard with prefix `q` fires once for an emit of any string key having
`q` among its namespace prefixes, and not again. -/
theorem C4_once_semantics (env : Env) (f : Nat) (p : Value) :
    (∀ (K : Key) (w h : HandlerId), classify K = .exactK →
      env w = .onceExact K h → env h = .plain [] →
      emit env (f + 3) (once emptyState K w) K (some p) =
        ⟨emptyState, [(w, CallArgs.payloadOnly p), (h, CallArgs.payloadOnly p)], .ok⟩ ∧
      emit env (f + 3) emptyState K (some p) = ⟨emptyState, [], .ok⟩) ∧
    (∀ (K : Key) (w h : HandlerId), classify K = .exactK →
      env w = .onceExact K h → env h = .plain [.aEmitP K p] →
      emit env (f + 6) (once emptyState K w) K (some p) =
        ⟨emptyState, [(w, CallArgs.payloadOnly p), (h, CallArgs.payloadOnly p)], .ok⟩) ∧
    (∀ (E : Key) (w h : HandlerId), env w = .onceStar h → env h = .plain [] →
      emit env (f + 3) (once emptyState (Key.str ['*']) w) E (some p) =
        ⟨emptyState, [(w, CallArgs.keyPayload E p), (h, CallArgs.keyPayload E p)], .ok⟩ ∧
      emit env (f + 3) emptyState E (some p) = ⟨emptyState, [], .ok⟩) ∧
    (∀ (K : Key) (q t : List Char) (w h : HandlerId),
      classify K = .nsw q → q ∈ getNamespacePrefixes t →
      env w = .onceNs q h → env h = .plain [] →
      emit env (f + 3) (once emptyState K w) (Key.str t) (some p) =
        ⟨emptyState, [(w, CallArgs.payloadOnly p), (h, CallArgs.payloadOnly p)], .ok⟩ ∧
      emit env (f + 3) emptyState (Key.str t) (some p) = ⟨emptyState, [], .ok⟩) := by
  have hempty : ∀ (E : Key), emit env (f + 3) emptyState E (some p) =
      ⟨emptyState, [], .ok⟩ := fun E =>
    emit_empty_tables env (f + 2) emptyState E (some p) rfl rfl rfl
  refine ⟨?_, ?_, ?_, ?_⟩
  · intro K w h hK hw hh
    have hst1 : once emptyState K w = ⟨[(K, [w])], [], [], none, false, false⟩ := by
      simp [once, hK, addToMap, getSet, mapGet, mapSet, setAdd, emptyState]
    refine ⟨?_, hempty K⟩
    rw [hst1]
    exact emit_once_exact env f p K w h hw hh
  · intro K w h hK hw hh
    have hst1 : once emptyState K w = ⟨[(K, [w])], [], [], none, false, false⟩ := by
      simp [once, hK, addToMap, getSet, mapGet, mapSet, setAdd, emptyState]
    have hemit0 : emit env ((f + 1) + 1)
        (⟨[], [], [], none, false, false⟩ : EState) K (some p) =
        ⟨⟨[], [], [], none, false, false⟩, [], .ok⟩ :=
      emit_empty_tables env (f + 1) _ K (some p) rfl rfl rfl
    rw [hst1, show f + 6 = (((((f + 1) + 1) + 1) + 1) + 1) + 1 from rfl,
      emit_unfold_exact env (((((f + 1) + 1) + 1) + 1) + 1) _ K (some p) [w]
        (by simp [mapGet])]
    cases K with
    | str s =>
      simp [payloadArgs, invokeList, invokeH, hw, hh, runActs, applyAct, Res.seq,
        removeFromMap, mapGet, setDel, mapDelete, hemit0, nsPhase_ns_empty, emptyState]
    | num n =>
      simp [payloadArgs, invokeList, invokeH, hw, hh, runActs, applyAct, Res.seq,
        removeFromMap, mapGet, setDel, mapDelete, hemit0, emptyState]
    | sym n =>
      simp [payloadArgs, invokeList, invokeH, hw, hh, runActs, applyAct, Res.seq,
        removeFromMap, mapGet, setDel, mapDelete, hemit0, emptyState]
  · intro E w h hw hh
    have hst1 : once emptyState (Key.str ['*']) w =
        ⟨[], [], [w], none, false, false⟩ := by
      simp [once, classify, setAdd, emptyState]
    refine ⟨?_, hempty E⟩
    rw [hst1, show f + 3 = ((f + 1) + 1) + 1 from rfl,
      emit_unfold_noexact env ((f + 1) + 1)
        (⟨[], [], [w], none, false, false⟩ : EState) E (some p) rfl]
    cases E with
    | str s =>
      simp [starArgs, invokeList, invokeH, hw, hh, runActs, Res.seq, setDel,
        nsPhase_ns_empty, emptyState]
    | num n =>
      simp [starArgs, invokeList, invokeH, hw, hh, runActs, Res.seq, setDel, emptyState]
    | sym n =>
      simp [starArgs, invokeList, invokeH, hw, hh, runActs, Res.seq, setDel, emptyState]
  · intro K q t w h hK hq hw hh
    have hst1 : once emptyState K w = ⟨[], [(q, [w])], [], none, false, false⟩ := by
      simp [once, hK, addToMap, getSet, mapGet, mapSet, setAdd, emptyState]
    refine ⟨?_, hempty (Key.str t)⟩
    have hwalk := nsPhase_once_walk env f (some p) q w h hw hh (getNamespacePrefixes t)
      (⟨[], [(q, [w])], [], none, false, false⟩ : EState) rfl
    rw [hst1, show f + 3 = ((f + 1) + 1) + 1 from rfl,
      emit_unfold_noexact env ((f + 1) + 1)
        (⟨[], [(q, [w])], [], none, false, false⟩ : EState) (Key.str t) (some p) rfl]
    simp only [show (f + 1) + 1 = f + 2 from rfl, hwalk, if_pos hq, Res.seq_mk_ok]
    simp [payloadArgs, emptyState]

/-- Witness for C4 at the exact key `ping`: one emit fires the wrapped
handler once and empties the table; the second emit fires nothing. -/
theorem C4_once_semantics_witness :
    emit envOnce 3 (once emptyState (Key.str "ping".toList) 10)
        (Key.str "ping".toList) (some 1) =
      ⟨emptyState, [(10, CallArgs.payloadOnly 1), (11, CallArgs.payloadOnly 1)], .ok⟩ ∧
    emit envOnce 3 emptyState (Key.str "ping".toList) (some 1) =
      ⟨emptyState, [], .ok⟩ :=
  (C4_once_semantics envOnce 0 1).1 (Key.str "ping".toList) 10 11 (by decide) rfl rfl

/-- C10 (`off` with the original handler does not undo `once`): after
`once(K, h)` the table stores the wrapper identity `w ≠ h`, and `off`
removes by identity, so `off(K, h)` leaves the registration in place:
the state and `listenerCount` are unchanged (one listener), and a
subsequent emit matching `K` still invokes the wrapper and then `h`,
exactly once each. Covered for all three key classes `once` registers
into: exact keys, the global wildcard `*` (where any emitted key
matches), and namespace wildcards (where any string key having the
wildcard's prefix among its namespace prefixes matches). -/
theorem C10_off_original_handler (env : Env) (f : Nat) (p : Value) :
    (∀ (K : Key) (w h : HandlerId), classify K = .exactK → w ≠ h →
      env w = .onceExact K h → env h = .plain [] →
      off (once emptyState K w) K h = once emptyState K w ∧
      listenerCount (off (once emptyState K w) K h) K = 1 ∧
      emit env (f + 3) (off (once emptyState K w) K h) K (some p) =
        ⟨emptyState, [(w, CallArgs.payloadOnly p), (h, CallArgs.payloadOnly p)],
          .ok⟩) ∧
    (∀ (E : Key) (w h : HandlerId), w ≠ h →
      env w = .onceStar h → env h = .plain [] →
      off (once emptyState (Key.str ['*']) w) (Key.str ['*']) h =
        once emptyState (Key.str ['*']) w ∧
      listenerCount (off (once emptyState (Key.str ['*']) w) (Key.str ['*']) h)
        (Key.str ['*']) = 1 ∧
      emit env (f + 3) (off (once emptyState (Key.str ['*']) w) (Key.str ['*']) h)
          E (some p) =
        ⟨emptyState, [(w, CallArgs.keyPayload E p), (h, CallArgs.keyPayload E p)],
          .ok⟩) ∧
    (∀ (K : Key) (q t : List Char) (w h : HandlerId), classify K = .nsw q → w ≠ h →
      q ∈ getNamespacePrefixes t →
      env w = .onceNs q h → env h = .plain [] →
      off (once emptyState K w) K h = once emptyState K w ∧
      listenerCount (off (once emptyState K w) K h) K = 1 ∧
      emit env (f + 3) (off (once emptyState K w) K h) (Key.str t) (some p) =
        ⟨emptyState, [(w, CallArgs.payloadOnly p), (h, CallArgs.payloadOnly p)],
          .ok⟩) := by
  refine ⟨?_, ?_, ?_⟩
  · intro K w h hK hne hw hh
    have hst1 : once emptyState K w = ⟨[(K, [w])], [], [], none, false, false⟩ := by
      simp [once, hK, addToMap, getSet, mapGet, mapSet, setAdd, emptyState]
    have hne' : ¬ w = h := hne
    have hoff : off (⟨[(K, [w])], [], [], none, false, false⟩ : EState) K h =
        ⟨[(K, [w])], [], [], none, false, false⟩ := by
      simp [off, hK, removeFromMap, mapGet, setDel, mapSet, hne']
    refine ⟨by rw [hst1, hoff], by rw [hst1, hoff]; simp [listenerCount, hK, mapGet],
      ?_⟩
    rw [hst1, hoff]
    exact emit_once_exact env f p K w h hw hh
  · intro E w h hne hw hh
    have hst1 : once emptyState (Key.str ['*']) w =
        ⟨[], [], [w], none, false, false⟩ := by
      simp [once, classify, setAdd, emptyState]
    have hne' : ¬ w = h := hne
    have hoff : off (⟨[], [], [w], none, false, false⟩ : EState) (Key.str ['*']) h =
        ⟨[], [], [w], none, false, false⟩ := by
      simp [off, classify, setDel, hne']
    refine ⟨by rw [hst1, hoff],
      by rw [hst1, hoff]; simp [listenerCount, classify], ?_⟩
    rw [hst1, hoff]
    exact emit_once_star env f p E w h hw hh
  · intro K q t w h hK hne hq hw hh
    have hst1 : once emptyState K w = ⟨[], [(q, [w])], [], none, false, false⟩ := by
      simp [once, hK, addToMap, getSet, mapGet, mapSet, setAdd, emptyState]
    have hne' : ¬ w = h := hne
    have hoff : off (⟨[], [(q, [w])], [], none, false, false⟩ : EState) K h =
        ⟨[], [(q, [w])], [], none, false, false⟩ := by
      simp [off, hK, removeFromMap, mapGet, setDel, mapSet, hne']
    refine ⟨by rw [hst1, hoff],
      by rw [hst1, hoff]; simp [listenerCount, hK, mapGet], ?_⟩
    rw [hst1, hoff]
    exact emit_once_ns env f p q t w h hq hw hh

/-- Witness for C10 on all three branches: exact key `ping` (wrapper
`10`, handler `11`), global wildcard (wrapper `12`, handler `13`,
emitting `ping`), and namespace wildcard `user.*` (wrapper `14`,
handler `15`, emitting `user.created`). -/
theorem C10_off_original_handler_witness :
    (off (once emptyState (Key.str "ping".toList) 10) (Key.str "ping".toList) 11 =
      once emptyState (Key.str "ping".toList) 10 ∧
    listenerCount (off (once emptyState (Key.str "ping".toList) 10)
      (Key.str "ping".toList) 11) (Key.str "ping".toList) = 1 ∧
    emit envC10 3 (off (once emptyState (Key.str "ping".toList) 10)
        (Key.str "ping".toList) 11) (Key.str "ping".toList) (some 1) =
      ⟨emptyState, [(10, CallArgs.payloadOnly 1), (11, CallArgs.payloadOnly 1)],
        .ok⟩) ∧
    (off (once emptyState (Key.str ['*']) 12) (Key.str ['*']) 13 =
      once emptyState (Key.str ['*']) 12 ∧
    listenerCount (off (once emptyState (Key.str ['*']) 12) (Key.str ['*']) 13)
      (Key.str ['*']) = 1 ∧
    emit envC10 3 (off (once emptyState (Key.str ['*']) 12) (Key.str ['*']) 13)
        (Key.str "ping".toList) (some 1) =
      ⟨emptyState,
        [(12, CallArgs.keyPayload (Key.str "ping".toList) 1),
         (13, CallArgs.keyPayload (Key.str "ping".toList) 1)], .ok⟩) ∧
    (off (once emptyState (Key.str "user.*".toList) 14) (Key.str "user.*".toList) 15 =
      once emptyState (Key.str "user.*".toList) 14 ∧
    listenerCount (off (once emptyState (Key.str "user.*".toList) 14)
      (Key.str "user.*".toList) 15) (Key.str "user.*".toList) = 1 ∧
    emit envC10 3 (off (once emptyState (Key.str "user.*".toList) 14)
        (Key.str "user.*".toList) 15) (Key.str "user.created".toList) (some 1) =
      ⟨emptyState, [(14, CallArgs.payloadOnly 1), (15, CallArgs.payloadOnly 1)],
        .ok⟩) :=
  ⟨(C10_off_original_handler envC10 0 1).1 (Key.str "ping".toList) 10 11
      (by decide) (by decide) rfl rfl,
   (C10_off_original_handler envC10 0 1).2.1 (Key.str "ping".toList) 12 13
      (by decide) rfl rfl,
   (C10_off_original_handler envC10 0 1).2.2 (Key.str "user.*".toList)
      "user.".toList "user.created".toList 14 15 (by decide) (by decide) (by decide)
      rfl rfl⟩

theorem setAdd_ne_nil {α : Type} [DecidableEq α] (s : List α) (x : α) :
    setAdd s x ≠ [] := by
  unfold setAdd
  by_cases hx : x ∈ s
  · simp only [if_pos hx]
    intro hnil
    rw [hnil] at hx
    cases hx
  · simp [if_neg hx]

theorem mapGet_mapSet_self {α β : Type} [DecidableEq α]
    (m : List (α × β)) (k : α) (v : β) : mapGet (mapSet m k v) k = some v := by
  induction m with
  | nil => simp [mapSet, mapGet]
  | cons e rest ih =>
    obtain ⟨k', v'⟩ := e
    by_cases hk : k' = k
    · simp [mapSet, mapGet, hk]
    · simp [mapSet, mapGet, hk, ih]

theorem mapGet_mapSet_ne {α β : Type} [DecidableEq α]
    (m : List (α × β)) (k k' : α) (v : β) (hk : k ≠ k') :
    mapGet (mapSet m k v) k' = mapGet m k' := by
  induction m with
  | nil => simp [mapSet, mapGet, hk]
  | cons e rest ih =>
    obtain ⟨k'', v''⟩ := e
    by_cases h2 : k'' = k
    · subst h2
      simp [mapSet, mapGet, hk]
    · simp only [mapSet, if_neg h2]
      by_cases h3 : k'' = k'
      · simp [mapGet, h3]
      · simp [mapGet, h3, ih]

theorem mapGet_eq_none_iff {α β : Type} [DecidableEq α]
    (m : List (α × β)) (k : α) : mapGet m k = none ↔ k ∉ m.map Prod.fst := by
  induction m with
  | nil => simp [mapGet]
  | cons e rest ih =>
    obtain ⟨k', v'⟩ := e
    by_cases hk : k' = k
    · simp [mapGet, hk]
    · rw [mapGet, if_neg hk, ih]
      simp only [List.map_cons, List.mem_cons]
      constructor
      · intro h hor
        rcases hor with h1 | h2
        · exact hk h1.symm
        · exact h h2
      · intro h h2
        exact h (Or.inr h2)

theorem mapGet_mem {α β : Type} [DecidableEq α]
    (m : List (α × β)) (k : α) (v : β) (h : mapGet m k = some v) : (k, v) ∈ m := by
  induction m with
  | nil => simp [mapGet] at h
  | cons e rest ih =>
    obtain ⟨k', v'⟩ := e
    by_cases hk : k' = k
    · subst hk
      rw [mapGet, if_pos rfl] at h
      simp [Option.some.inj h]
    · rw [mapGet, if_neg hk] at h
      simp [ih h]

theorem map_fst_mapDelete_sublist {α β : Type} [DecidableEq α]
    (m : List (α × β)) (k : α) :
    ((mapDelete m k).map Prod.fst).Sublist (m.map Prod.fst) := by
  induction m with
  | nil => simp [mapDelete]
  | cons e rest ih =>
    obtain ⟨k', v'⟩ := e
    by_cases hk : k' = k
    · simp only [mapDelete, if_pos hk, List.map_cons]
      exact (List.sublist_cons_self _ _)
    · simp only [mapDelete, if_neg hk, List.map_cons]
      exact ih.cons₂ k'

theorem mem_mapDelete {α β : Type} [DecidableEq α]
    (m : List (α × β)) (k : α) (e : α × β) (h : e ∈ mapDelete m k) : e ∈ m := by
  induction m with
  | nil => simp [mapDelete] at h
  | cons e' rest ih =>
    obtain ⟨k', v'⟩ := e'
    by_cases hk : k' = k
    · rw [mapDelete, if_pos hk] at h
      simp [h]
    · rw [mapDelete, if_neg hk] at h
      rcases List.mem_cons.mp h with h1 | h2
      · simp [h1]
      · simp [ih h2]

theorem mem_mapSet {α β : Type} [DecidableEq α]
    (m : List (α × β)) (k : α) (v : β) (e : α × β) (h : e ∈ mapSet m k v) :
    e = (k, v) ∨ e ∈ m := by
  induction m with
  | nil => simp [mapSet] at h; simp [h]
  | cons e' rest ih =>
    obtain ⟨k', v'⟩ := e'
    by_cases hk : k' = k
    · rw [mapSet, if_pos hk] at h
      rcases List.mem_cons.mp h with h1 | h2
      · simp [h1]
      · simp [h2]
    · rw [mapSet, if_neg hk] at h
      rcases List.mem_cons.mp h with h1 | h2
      · simp [h1]
      · rcases ih h2 with h3 | h4
        · simp [h3]
        · simp [h4]

theorem map_fst_mapSet {α β : Type} [DecidableEq α]
    (m : List (α × β)) (k : α) (v : β) :
    (mapSet m k v).map Prod.fst =
      if k ∈ m.map Prod.fst then m.map Prod.fst else m.map Prod.fst ++ [k] := by
  induction m with
  | nil => simp [mapSet]
  | cons e rest ih =>
    obtain ⟨k', v'⟩ := e
    by_cases hk : k' = k
    · subst hk
      simp [mapSet]
    · simp only [mapSet, if_neg hk, List.map_cons, ih]
      have hkk : ¬ k = k' := fun h => hk h.symm
      by_cases hmem : k ∈ rest.map Prod.fst
      · simp [hmem, hkk]
      · simp [hmem, hkk]

theorem nodup_keys_mapSet {α β : Type} [DecidableEq α]
    (m : List (α × β)) (k : α) (v : β) (h : (m.map Prod.fst).Nodup) :
    ((mapSet m k v).map Prod.fst).Nodup := by
  rw [map_fst_mapSet]
  by_cases hmem : k ∈ m.map Prod.fst
  · simpa [hmem] using h
  · simp [hmem, List.nodup_append, h]

theorem tableWF_addToMap {α : Type} [DecidableEq α]
    (m : List (α × List HandlerId)) (k : α) (h : HandlerId) (hwf : tableWF m) :
    tableWF (addToMap m k h) := by
  constructor
  · intro e he
    rcases mem_mapSet _ _ _ _ he with h1 | h2
    · rw [h1]
      exact setAdd_ne_nil _ _
    · exact hwf.1 e h2
  · exact nodup_keys_mapSet _ _ _ hwf.2

theorem tableWF_removeFromMap {α : Type} [DecidableEq α]
    (m : List (α × List HandlerId)) (k : α) (h : HandlerId) (hwf : tableWF m) :
    tableWF (removeFromMap m k h) := by
  rw [removeFromMap]
  cases hget : mapGet m k with
  | none => exact hwf
  | some s =>
    by_cases hnil : setDel s h = []
    · simp only [hnil, if_pos rfl]
      exact ⟨fun e he => hwf.1 e (mem_mapDelete _ _ _ he),
        hwf.2.sublist (map_fst_mapDelete_sublist m k)⟩
    · simp only [hnil, if_neg hnil]
      constructor
      · intro e he
        rcases mem_mapSet _ _ _ _ he with h1 | h2
        · rw [h1]; exact hnil
        · exact hwf.1 e h2
      · exact nodup_keys_mapSet _ _ _ hwf.2

/-- Keys of `removeFromMap`: every key of an entry of the result is a
key of an entry of `m`. -/
theorem mem_removeFromMap {α : Type} [DecidableEq α]
    (m : List (α × List HandlerId)) (k : α) (h : HandlerId) (e : α × List HandlerId)
    (he : e ∈ removeFromMap m k h) : e ∈ m ∨ ∃ v, (e.1, v) ∈ m := by
  rw [removeFromMap] at he
  cases hget : mapGet m k with
  | none =>
    rw [hget] at he
    exact Or.inl he
  | some s =>
    rw [hget] at he
    have he' : e ∈ if setDel s h = [] then mapDelete m k else mapSet m k (setDel s h) :=
      he
    by_cases hnil : setDel s h = []
    · rw [if_pos hnil] at he'
      exact Or.inl (mem_mapDelete _ _ _ he')
    · rw [if_neg hnil] at he'
      rcases mem_mapSet _ _ _ _ he' with h1 | h2
      · right
        exact ⟨s, by rw [h1]; exact mapGet_mem _ _ _ hget⟩
      · exact Or.inl h2

/-- Deleting a key that was freshly inserted into a map that did not
contain it restores the original map. -/
theorem mapDelete_mapSet_none {α β : Type} [DecidableEq α]
    (m : List (α × β)) (k : α) (v : β) (h : mapGet m k = none) :
    mapDelete (mapSet m k v) k = m := by
  induction m with
  | nil => simp [mapSet, mapDelete]
  | cons e rest ih =>
    obtain ⟨k', v'⟩ := e
    rw [mapGet] at h
    by_cases hk : k' = k
    · rw [if_pos hk] at h
      cases h
    · rw [if_neg hk] at h
      rw [mapSet, if_neg hk, mapDelete, if_neg hk, ih h]

/-- In a well-formed table, a zero listener count means the key is
absent (stored sets are never empty). -/
theorem mapGet_eq_none_of_count_zero {α : Type} [DecidableEq α]
    (m : List (α × List HandlerId)) (k : α) (hwf : tableWF m)
    (hc : ((mapGet m k).map List.length).getD 0 = 0) : mapGet m k = none := by
  cases hget : mapGet m k with
  | none => rfl
  | some s =>
    exfalso
    rw [hget] at hc
    have hs : s ≠ [] := hwf.1 (k, s) (mapGet_mem _ _ _ hget)
    simp only [Option.map_some', Option.getD_some] at hc
    exact hs (List.length_eq_zero.mp hc)

/-- C5 (waitFor with an already-aborted signal): when the cancellation
signal is already aborted at call time, the synchronous part of
`waitFor` leaves the promise rejected with `Error('Aborted')`, the
listener count of the key at its pre-call value `0` (the temporary
listener is registered and immediately unregistered by `cleanup`, so it
is not observable after the call), and no timer armed — whether or not
`timeoutMs` was supplied. -/
theorem C5_waitFor_already_aborted (st : EState) (event : Key) (w : HandlerId)
    (t : Option Nat) (hinv : Inv st) (hcount : listenerCount st event = 0) :
    (waitForSync st event w t (some true)).settled =
      some (.rejected (.errorMsg "Aborted".toList)) ∧
    listenerCount (waitForSync st event w t (some true)) event = 0 ∧
    (waitForSync st event w t (some true)).timerArmed = false := by
  cases hc : classify event with
  | star =>
    have hstar : st.star = [] := by
      rw [listenerCount, hc] at hcount
      exact List.length_eq_zero.mp hcount
    refine ⟨?_, ?_, ?_⟩ <;>
      cases t <;>
        simp [waitForSync, onE, off, doCleanup, settleErr, hc, hstar, setAdd, setDel,
          listenerCount]
  | nsw pfx =>
    have hget : mapGet st.ns pfx = none := by
      rw [listenerCount, hc] at hcount
      exact mapGet_eq_none_of_count_zero _ _ hinv.2.1 hcount
    have hdel : mapDelete (mapSet st.ns pfx [w]) pfx = st.ns :=
      mapDelete_mapSet_none _ _ _ hget
    refine ⟨?_, ?_, ?_⟩ <;>
      cases t <;>
        simp [waitForSync, onE, off, doCleanup, settleErr, hc, listenerCount,
          addToMap, getSet, hget, removeFromMap, mapGet_mapSet_self, setDel, setAdd,
          hdel]
  | exactK =>
    have hget : mapGet st.exact event = none := by
      rw [listenerCount, hc] at hcount
      exact mapGet_eq_none_of_count_zero _ _ hinv.1 hcount
    have hdel : mapDelete (mapSet st.exact event [w]) event = st.exact :=
      mapDelete_mapSet_none _ _ _ hget
    refine ⟨?_, ?_, ?_⟩ <;>
      cases t <;>
        simp [waitForSync, onE, off, doCleanup, settleErr, hc, listenerCount,
          addToMap, getSet, hget, removeFromMap, mapGet_mapSet_self, setDel, setAdd,
          hdel]

/-- Witness for C5 on a fresh emitter with a timeout supplied. -/
theorem C5_waitFor_already_aborted_witness :
    (waitForSync emptyState (Key.str "ping".toList) 0 (some 50) (some true)).settled =
      some (.rejected (.errorMsg "Aborted".toList)) ∧
    listenerCount (waitForSync emptyState (Key.str "ping".toList) 0 (some 50)
      (some true)) (Key.str "ping".toList) = 0 ∧
    (waitForSync emptyState (Key.str "ping".toList) 0 (some 50)
      (some true)).timerArmed = false :=
  C5_waitFor_already_aborted emptyState (Key.str "ping".toList) 0 (some 50)
    (by constructor <;> simp [tableWF, emptyState]) (by decide)

/-- C9 (a throwing filter cannot hang `waitFor`): with a handler `h0`
registered for exact key `K` and a `waitFor(K, {filter, timeoutMs})`
pending (listener `w`, timer armed), an emit of `K` whose payload makes
the filter throw `e` leaves the promise rejected with the thrown error,
runs teardown (the listener is unregistered and the timer cleared), and
`listenerCount(K)` is back at its pre-`waitFor` value `1`; the throw is
caught by the listener, so the emit itself completes normally. -/
theorem C9_throwing_filter (env : Env) (f : Nat) (K : Key) (h0 w : HandlerId)
    (p e : Value) (fil : Option Value → FilterRes) (T : Nat)
    (hK : classify K = .exactK) (hne : h0 ≠ w)
    (hh0 : env h0 = .plain []) (hw : env w = .waitL K fil)
    (hfil : fil (some p) = .fthrow e) :
    waitForSync (⟨[(K, [h0])], [], [], none, false, false⟩ : EState) K w (some T) none =
      ⟨[(K, [h0, w])], [], [], none, false, true⟩ ∧
    emit env (f + 2) (⟨[(K, [h0, w])], [], [], none, false, true⟩ : EState) K (some p) =
      ⟨⟨[(K, [h0])], [], [], some (.rejected (.thrown e)), true, false⟩,
        [(h0, CallArgs.payloadOnly p), (w, CallArgs.payloadOnly p)], .ok⟩ ∧
    listenerCount (⟨[(K, [h0])], [], [], some (.rejected (.thrown e)), true, false⟩ :
      EState) K =
      listenerCount (⟨[(K, [h0])], [], [], none, false, false⟩ : EState) K := by
  have hne' : ¬ w = h0 := fun h => hne h.symm
  refine ⟨?_, ?_, rfl⟩
  · simp [waitForSync, onE, hK, addToMap, getSet, mapGet, mapSet, setAdd, hne']
  · rw [show f + 2 = (f + 1) + 1 from rfl,
      emit_unfold_exact env (f + 1) _ K (some p) [h0, w] (by simp [mapGet])]
    cases K with
    | str s =>
      simp [payloadArgs, invokeList, invokeH, hh0, hw, hfil, runActs, Res.seq,
        doCleanup, off, hK, removeFromMap, mapGet, setDel, mapSet, settleErr,
        payloadOf, nsPhase_ns_empty, hne, invokeList_nil]
    | num n =>
      simp [payloadArgs, invokeList, invokeH, hh0, hw, hfil, runActs, Res.seq,
        doCleanup, off, hK, removeFromMap, mapGet, setDel, mapSet, settleErr,
        payloadOf, hne, invokeList_nil]
    | sym n =>
      simp [payloadArgs, invokeList, invokeH, hh0, hw, hfil, runActs, Res.seq,
        doCleanup, off, hK, removeFromMap, mapGet, setDel, mapSet, settleErr,
        payloadOf, hne, invokeList_nil]

/-- Witness for C9 at key `ping` with payload `5` and thrown value `7`. -/
theorem C9_throwing_filter_witness :
    waitForSync (⟨[(Key.str "ping".toList, [21])], [], [], none, false, false⟩ : EState)
        (Key.str "ping".toList) 20 (some 50) none =
      ⟨[(Key.str "ping".toList, [21, 20])], [], [], none, false, true⟩ ∧
    emit envC9 2
        (⟨[(Key.str "ping".toList, [21, 20])], [], [], none, false, true⟩ : EState)
        (Key.str "ping".toList) (some 5) =
      ⟨⟨[(Key.str "ping".toList, [21])], [], [],
          some (.rejected (.thrown 7)), true, false⟩,
        [(21, CallArgs.payloadOnly 5), (20, CallArgs.payloadOnly 5)], .ok⟩ ∧
    listenerCount (⟨[(Key.str "ping".toList, [21])], [], [],
        some (.rejected (.thrown 7)), true, false⟩ : EState) (Key.str "ping".toList) =
      listenerCount (⟨[(Key.str "ping".toList, [21])], [], [], none, false, false⟩ :
        EState) (Key.str "ping".toList) :=
  C9_throwing_filter envC9 0 (Key.str "ping".toList) 21 20 5 7
    (fun _ => .fthrow 7) 50 (by decide) (by decide) rfl rfl rfl

theorem setDel_idem {α : Type} [DecidableEq α] (s : List α) (x : α) :
    setDel (setDel s x) x = setDel s x := by
  simp [setDel, List.filter_filter]

theorem setDel_not_mem {α : Type} [DecidableEq α] (s : List α) (x : α) (h : x ∉ s) :
    setDel s x = s := by
  induction s with
  | nil => rfl
  | cons y rest ih =>
    have hy : ¬ y = x := fun hyx => h (by rw [hyx]; exact List.mem_cons_self x rest)
    have hrest : x ∉ rest := fun hr => h (List.mem_cons_of_mem y hr)
    simp [setDel] at ih ⊢
    exact ⟨hy, ih hrest⟩

theorem mapGet_mapDelete_self {α β : Type} [DecidableEq α]
    (m : List (α × β)) (k : α) (hnd : (m.map Prod.fst).Nodup) :
    mapGet (mapDelete m k) k = none := by
  induction m with
  | nil => rfl
  | cons e rest ih =>
    obtain ⟨k', v'⟩ := e
    rw [List.map_cons, List.nodup_cons] at hnd
    by_cases hk : k' = k
    · rw [mapDelete, if_pos hk]
      rw [mapGet_eq_none_iff]
      rw [← hk]
      exact hnd.1
    · rw [mapDelete, if_neg hk, mapGet, if_neg hk]
      exact ih hnd.2

theorem mapSet_mapSet_self {α β : Type} [DecidableEq α]
    (m : List (α × β)) (k : α) (v v' : β) :
    mapSet (mapSet m k v) k v' = mapSet m k v' := by
  induction m with
  | nil => simp [mapSet]
  | cons e rest ih =>
    obtain ⟨k', v''⟩ := e
    by_cases hk : k' = k
    · simp [mapSet, hk]
    · simp [mapSet, hk, ih]

theorem mapSet_get_self {α β : Type} [DecidableEq α]
    (m : List (α × β)) (k : α) (s : β) (h : mapGet m k = some s) :
    mapSet m k s = m := by
  induction m with
  | nil => simp [mapGet] at h
  | cons e rest ih =>
    obtain ⟨k', v'⟩ := e
    by_cases hk : k' = k
    · rw [mapGet, if_pos hk] at h
      rw [mapSet, if_pos hk, hk, Option.some.inj h]
    · rw [mapGet, if_neg hk] at h
      rw [mapSet, if_neg hk, ih h]

theorem removeFromMap_none {α : Type} [DecidableEq α]
    (m : List (α × List HandlerId)) (k : α) (h : HandlerId)
    (hget : mapGet m k = none) : removeFromMap m k h = m := by
  rw [removeFromMap, hget]

theorem removeFromMap_some_nil {α : Type} [DecidableEq α]
    (m : List (α × List HandlerId)) (k : α) (h : HandlerId) (s : List HandlerId)
    (hget : mapGet m k = some s) (hnil : setDel s h = []) :
    removeFromMap m k h = mapDelete m k := by
  rw [removeFromMap, hget]
  simp [hnil]

theorem removeFromMap_some_ne {α : Type} [DecidableEq α]
    (m : List (α × List HandlerId)) (k : α) (h : HandlerId) (s : List HandlerId)
    (hget : mapGet m k = some s) (hnil : setDel s h ≠ []) :
    removeFromMap m k h = mapSet m k (setDel s h) := by
  rw [removeFromMap, hget]
  simp [hnil]

/-- `removeFromMap` is idempotent on tables with unique keys. -/
theorem removeFromMap_idem {α : Type} [DecidableEq α]
    (m : List (α × List HandlerId)) (k : α) (h : HandlerId)
    (hnd : (m.map Prod.fst).Nodup) :
    removeFromMap (removeFromMap m k h) k h = removeFromMap m k h := by
  cases hget : mapGet m k with
  | none =>
    rw [removeFromMap_none m k h hget, removeFromMap_none m k h hget]
  | some s =>
    by_cases hnil : setDel s h = []
    · rw [removeFromMap_some_nil m k h s hget hnil,
        removeFromMap_none _ k h (mapGet_mapDelete_self m k hnd)]
    · rw [removeFromMap_some_ne m k h s hget hnil,
        removeFromMap_some_ne _ k h (setDel s h) (mapGet_mapSet_self m k _)
          (by rw [setDel_idem]; exact hnil),
        setDel_idem, mapSet_mapSet_self]

/-- C8 (idempotent unsubscription): the unsubscribe closure returned by
`on` performs exactly the work of `off`, and calling it twice leaves the
tables as after calling it once; `off` for a key/handler pair that is
not registered is a silent no-op; `listenerCount` is a natural number,
hence never negative. -/
theorem C8_idempotent_unsubscribe :
    (∀ (st : EState) (K : Key) (h : HandlerId), Inv st →
      off (off st K h) K h = off st K h) ∧
    (∀ (st : EState) (K : Key) (h : HandlerId), Inv st →
      h ∉ registeredSet st K → off st K h = st) ∧
    (∀ (st : EState) (K : Key), 0 ≤ listenerCount st K) := by
  refine ⟨?_, ?_, fun st K => Nat.zero_le _⟩
  · intro st K h hinv
    cases hc : classify K with
    | star => simp [off, hc, setDel_idem]
    | nsw q => simp [off, hc, removeFromMap_idem st.ns q h hinv.2.1.2]
    | exactK => simp [off, hc, removeFromMap_idem st.exact K h hinv.1.2]
  · intro st K h hinv hmem
    rw [registeredSet] at hmem
    cases hc : classify K with
    | star =>
      simp only [hc] at hmem
      simp [off, hc, setDel_not_mem st.star h hmem]
    | nsw q =>
      simp only [hc] at hmem
      cases hget : mapGet st.ns q with
      | none => simp [off, hc, removeFromMap_none _ _ _ hget]
      | some s =>
        simp only [getSet, hget, Option.getD_some] at hmem
        have hs : s ≠ [] := hinv.2.1.1 (q, s) (mapGet_mem _ _ _ hget)
        have hsd : setDel s h = s := setDel_not_mem s h hmem
        simp [off, hc, removeFromMap_some_ne _ _ _ s hget (by rw [hsd]; exact hs),
          hsd, mapSet_get_self _ _ _ hget]
    | exactK =>
      simp only [hc] at hmem
      cases hget : mapGet st.exact K with
      | none => simp [off, hc, removeFromMap_none _ _ _ hget]
      | some s =>
        simp only [getSet, hget, Option.getD_some] at hmem
        have hs : s ≠ [] := hinv.1.1 (K, s) (mapGet_mem _ _ _ hget)
        have hsd : setDel s h = s := setDel_not_mem s h hmem
        simp [off, hc, removeFromMap_some_ne _ _ _ s hget (by rw [hsd]; exact hs),
          hsd, mapSet_get_self _ _ _ hget]

/-- Witness for C8: double unsubscription of the `user.*` handler of
`nsExample`, a no-op `off` for an unregistered pair, and the count. -/
theorem C8_idempotent_unsubscribe_witness :
    off (off nsExample (Key.str "user.*".toList) 2) (Key.str "user.*".toList) 2 =
      off nsExample (Key.str "user.*".toList) 2 ∧
    off nsExample (Key.str "other".toList) 9 = nsExample ∧
    0 ≤ listenerCount nsExample (Key.str "user.*".toList) :=
  ⟨C8_idempotent_unsubscribe.1 nsExample (Key.str "user.*".toList) 2 (by decide),
   C8_idempotent_unsubscribe.2.1 nsExample (Key.str "other".toList) 9 (by decide)
     (by decide),
   C8_idempotent_unsubscribe.2.2 nsExample (Key.str "user.*".toList)⟩

/-! ### Preservation of the table invariant by every operation -/

theorem Inv_removeExact (st : EState) (k : Key) (h : HandlerId) (hinv : Inv st) :
    Inv { st with exact := removeFromMap st.exact k h } := by
  refine ⟨tableWF_removeFromMap _ _ _ hinv.1, hinv.2.1, ?_⟩
  intro e he
  rcases mem_removeFromMap _ _ _ _ he with h1 | ⟨v, h2⟩
  · exact hinv.2.2 e h1
  · exact hinv.2.2 (e.1, v) h2

theorem Inv_removeNs (st : EState) (q : List Char) (h : HandlerId) (hinv : Inv st) :
    Inv { st with ns := removeFromMap st.ns q h } :=
  ⟨hinv.1, tableWF_removeFromMap _ _ _ hinv.2.1, hinv.2.2⟩

theorem Inv_removeStar (st : EState) (h : HandlerId) (hinv : Inv st) :
    Inv { st with star := setDel st.star h } :=
  ⟨hinv.1, hinv.2.1, hinv.2.2⟩

theorem Inv_onE (st : EState) (K : Key) (h : HandlerId) (hinv : Inv st) :
    Inv (onE st K h) := by
  rw [onE]
  cases hc : classify K with
  | star => exact ⟨hinv.1, hinv.2.1, hinv.2.2⟩
  | nsw q => exact ⟨hinv.1, tableWF_addToMap _ _ _ hinv.2.1, hinv.2.2⟩
  | exactK =>
    refine ⟨tableWF_addToMap _ _ _ hinv.1, hinv.2.1, ?_⟩
    intro e he
    rcases mem_mapSet _ _ _ _ he with h1 | h2
    · rw [h1]
      exact hc
    · exact hinv.2.2 e h2

theorem Inv_off (st : EState) (K : Key) (h : HandlerId) (hinv : Inv st) :
    Inv (off st K h) := by
  rw [off]
  cases hc : classify K with
  | star => exact Inv_removeStar st h hinv
  | nsw q => exact Inv_removeNs st q h hinv
  | exactK => exact Inv_removeExact st K h hinv

theorem once_eq_onE (st : EState) (K : Key) (w : HandlerId) :
    once st K w = onE st K w := rfl

theorem Inv_clear (st : EState) : Inv (clear st) := by
  refine ⟨⟨?_, ?_⟩, ⟨?_, ?_⟩, ?_⟩ <;> simp [clear, tableWF]

theorem Inv_doCleanup (st : EState) (K : Key) (w : HandlerId) (hinv : Inv st) :
    Inv (doCleanup st K w) := by
  rw [doCleanup]
  by_cases hcl : st.cleaned
  · simpa [hcl] using hinv
  · simp only [hcl, if_neg]
    have h1 := Inv_off st K w hinv
    exact ⟨h1.1, h1.2.1, h1.2.2⟩

theorem Inv_settleOk (st : EState) (v : Option Value) (hinv : Inv st) :
    Inv (settleOk st v) := by
  rw [settleOk]
  cases st.settled <;> exact ⟨hinv.1, hinv.2.1, hinv.2.2⟩

theorem Inv_settleErr (st : EState) (e : ErrVal) (hinv : Inv st) :
    Inv (settleErr st e) := by
  rw [settleErr]
  cases st.settled <;> exact ⟨hinv.1, hinv.2.1, hinv.2.2⟩

theorem Inv_waitForSync (st : EState) (K : Key) (w : HandlerId)
    (t : Option Nat) (sig : Option Bool) (hinv : Inv st) :
    Inv (waitForSync st K w t sig) := by
  have h0 : Inv { st with settled := none, cleaned := false, timerArmed := false } :=
    ⟨hinv.1, hinv.2.1, hinv.2.2⟩
  have h1 := Inv_onE _ K w h0
  have h2 : Inv (if t.isSome then
      { onE { st with settled := none, cleaned := false, timerArmed := false } K w with
        timerArmed := true }
      else onE { st with settled := none, cleaned := false, timerArmed := false } K w) := by
    by_cases ht : t.isSome
    · simp only [ht, if_pos]
      exact ⟨h1.1, h1.2.1, h1.2.2⟩
    · simpa [ht] using h1
  cases sig with
  | none => exact h2
  | some b =>
    cases b with
    | false => exact h2
    | true => exact Inv_settleErr _ _ (Inv_doCleanup _ K w h2)

theorem Res.seq_inv (r : Res) (k : EState → Res) (hr : Inv r.st)
    (hk : ∀ st', Inv st' → Inv (k st').st) : Inv (r.seq k).st := by
  rw [Res.seq]
  cases r.out with
  | ok => exact hk r.st hr
  | threw e => exact hr
  | fuelOut => exact hr

/-- The interpreter preserves the table invariant at every fuel level:
every state change it performs goes through `on`/`off`/`once`/`clear`
(re-entrant handler actions), `removeFromMap` (once-wrappers), or the
`waitFor` listener's cleanup/settlement. -/
theorem interp_inv (env : Env) : ∀ fuel : Nat,
    (∀ st h args, Inv st → Inv (invokeH env fuel st h args).st) ∧
    (∀ st a, Inv st → Inv (applyAct env fuel st a).st) ∧
    (∀ st acts, Inv st → Inv (runActs env fuel st acts).st) ∧
    (∀ st hs args, Inv st → Inv (invokeList env fuel st hs args).st) ∧
    (∀ st qs p, Inv st → Inv (nsPhase env fuel st qs p).st) ∧
    (∀ st K p, Inv st → Inv (emit env fuel st K p).st) := by
  intro fuel
  induction fuel with
  | zero =>
    have hH : ∀ st h args, Inv st → Inv (invokeH env 0 st h args).st := by
      intro st h args hinv
      simpa [invokeH] using hinv
    have hA : ∀ st a, Inv st → Inv (applyAct env 0 st a).st := by
      intro st a hinv
      cases a with
      | aOn k h => simpa [applyAct] using Inv_onE st k h hinv
      | aOff k h => simpa [applyAct] using Inv_off st k h hinv
      | aClear => simpa [applyAct] using Inv_clear st
      | aThrow v => simpa [applyAct] using hinv
      | aEmitP k p => simpa [applyAct] using hinv
      | aEmitV k => simpa [applyAct] using hinv
    have hR : ∀ st acts, Inv st → Inv (runActs env 0 st acts).st := by
      intro st acts
      induction acts generalizing st with
      | nil => intro hinv; simpa [runActs] using hinv
      | cons a rest ihr =>
        intro hinv
        rw [runActs]
        exact Res.seq_inv _ _ (hA st a hinv) (fun st' h' => ihr st' h')
    have hL : ∀ st hs args, Inv st → Inv (invokeList env 0 st hs args).st := by
      intro st hs args
      induction hs generalizing st with
      | nil => intro hinv; simpa [invokeList] using hinv
      | cons h rest ihl =>
        intro hinv
        rw [invokeList]
        exact Res.seq_inv _ _ (hH st h args hinv) (fun st' h' => ihl st' h')
    have hN : ∀ st qs p, Inv st → Inv (nsPhase env 0 st qs p).st := by
      intro st qs p
      induction qs generalizing st with
      | nil => intro hinv; simpa [nsPhase] using hinv
      | cons q rest ihn =>
        intro hinv
        rw [nsPhase]
        cases hget : mapGet st.ns q with
        | none => exact ihn st hinv
        | some hs => exact Res.seq_inv _ _ (hL st hs _ hinv) (fun st' h' => ihn st' h')
    refine ⟨hH, hA, hR, hL, hN, ?_⟩
    intro st K p hinv
    simpa [emit] using hinv
  | succ f ih =>
    obtain ⟨ihH, ihA, ihR, ihL, ihN, ihE⟩ := ih
    have hH : ∀ st h args, Inv st → Inv (invokeH env (f + 1) st h args).st := by
      intro st h args hinv
      cases henv : env h with
      | plain acts =>
        simp only [invokeH, henv]
        exact ihR _ _ hinv
      | onceExact event inner =>
        simp only [invokeH, henv]
        exact ihH _ _ _ (Inv_removeExact st event h hinv)
      | onceNs pfx inner =>
        simp only [invokeH, henv]
        exact ihH _ _ _ (Inv_removeNs st pfx h hinv)
      | onceStar inner =>
        simp only [invokeH, henv]
        exact ihH _ _ _ (Inv_removeStar st h hinv)
      | waitL event filter =>
        simp only [invokeH, henv]
        cases filter (payloadOf args) with
        | ffail => exact hinv
        | fpass => exact Inv_settleOk _ _ (Inv_doCleanup st event h hinv)
        | fthrow e => exact Inv_settleErr _ _ (Inv_doCleanup st event h hinv)
    have hA : ∀ st a, Inv st → Inv (applyAct env (f + 1) st a).st := by
      intro st a hinv
      cases a with
      | aOn k h => simpa [applyAct] using Inv_onE st k h hinv
      | aOff k h => simpa [applyAct] using Inv_off st k h hinv
      | aClear => simpa [applyAct] using Inv_clear st
      | aThrow v => simpa [applyAct] using hinv
      | aEmitP k p => simpa [applyAct] using ihE st k (some p) hinv
      | aEmitV k => simpa [applyAct] using ihE st k none hinv
    have hR : ∀ st acts, Inv st → Inv (runActs env (f + 1) st acts).st := by
      intro st acts
      induction acts generalizing st with
      | nil => intro hinv; simpa [runActs] using hinv
      | cons a rest ihr =>
        intro hinv
        rw [runActs]
        exact Res.seq_inv _ _ (hA st a hinv) (fun st' h' => ihr st' h')
    have hL : ∀ st hs args, Inv st → Inv (invokeList env (f + 1) st hs args).st := by
      intro st hs args
      induction hs generalizing st with
      | nil => intro hinv; simpa [invokeList] using hinv
      | cons h rest ihl =>
        intro hinv
        rw [invokeList]
        exact Res.seq_inv _ _ (hH st h args hinv) (fun st' h' => ihl st' h')
    have hN : ∀ st qs p, Inv st → Inv (nsPhase env (f + 1) st qs p).st := by
      intro st qs p
      induction qs generalizing st with
      | nil => intro hinv; simpa [nsPhase] using hinv
      | cons q rest ihn =>
        intro hinv
        rw [nsPhase]
        cases hget : mapGet st.ns q with
        | none => exact ihn st hinv
        | some hs => exact Res.seq_inv _ _ (hL st hs _ hinv) (fun st' h' => ihn st' h')
    refine ⟨hH, hA, hR, hL, hN, ?_⟩
    intro st K p hinv
    rw [emit]
    refine Res.seq_inv _ _ ?_ ?_
    · cases hx : mapGet st.exact K with
      | none => exact hinv
      | some hs => exact ihL st hs _ hinv
    · intro st1 h1
      refine Res.seq_inv _ _ ?_ ?_
      · cases K with
        | str s => exact ihN st1 _ p h1
        | num n => exact h1
        | sym n => exact h1
      · intro st2 h2
        by_cases hstar : st2.star = []
        · simpa [hstar] using h2
        · simp only [hstar, if_neg]
          exact ihL st2 _ _ h2

/-- C7 (non-empty-set table invariant): `on`, `off`, `once`, `clear`,
the synchronous part of `waitFor` (registration, and teardown on an
already-aborted signal), and `emit` — at any fuel, under any handler
behaviors, hence including every re-entrant mutation and the `waitFor`
listener's teardown — preserve the invariant `Inv`: every key present in
the exact table and every prefix present in the namespace table maps to
a non-empty handler set (sets emptied by removal are deleted in the same
operation), keys are unique, and the exact table holds only
exact-classified keys. Consequently `eventNames()` never lists a key
with zero listeners, and `listenerCount` agrees with the stored set. -/
theorem C7_nonempty_table_invariant :
    (∀ (st : EState) (K : Key) (h : HandlerId), Inv st → Inv (onE st K h)) ∧
    (∀ (st : EState) (K : Key) (h : HandlerId), Inv st → Inv (off st K h)) ∧
    (∀ (st : EState) (K : Key) (w : HandlerId), Inv st → Inv (once st K w)) ∧
    (∀ st : EState, Inv st → Inv (clear st)) ∧
    (∀ (st : EState) (K : Key) (w : HandlerId) (t : Option Nat) (sig : Option Bool),
      Inv st → Inv (waitForSync st K w t sig)) ∧
    (∀ (env : Env) (fuel : Nat) (st : EState) (K : Key) (p : Option Value),
      Inv st → Inv ((emit env fuel st K p).st)) ∧
    (∀ (st : EState) (K : Key), Inv st → K ∈ eventNames st →
      listenerCount st K = (getSet st.exact K).length ∧ 0 < listenerCount st K) := by
  refine ⟨Inv_onE, Inv_off, fun st K w => Inv_onE st K w, fun st _ => Inv_clear st,
    Inv_waitForSync, fun env fuel st K p => (interp_inv env fuel).2.2.2.2.2 st K p, ?_⟩
  intro st K hinv hK
  rw [eventNames] at hK
  cases hget : mapGet st.exact K with
  | none => exact absurd hK ((mapGet_eq_none_iff st.exact K).mp hget)
  | some s =>
    have hmem := mapGet_mem _ _ _ hget
    have hc : classify K = .exactK := hinv.2.2 (K, s) hmem
    have hs : s ≠ [] := hinv.1.1 (K, s) hmem
    constructor
    · simp [listenerCount, hc, hget, getSet]
    · simp only [listenerCount, hc, hget, Option.map_some', Option.getD_some]
      exact List.length_pos.mpr hs

/-- Witness for C7: registering `ping` on `nsExample` preserves the
invariant, and `ping` then has an accurate, positive listener count. -/
theorem C7_nonempty_table_invariant_witness :
    Inv (onE nsExample (Key.str "ping".toList) 7) ∧
    (listenerCount (onE nsExample (Key.str "ping".toList) 7) (Key.str "ping".toList) =
      (getSet (onE nsExample (Key.str "ping".toList) 7).exact
        (Key.str "ping".toList)).length ∧
     0 < listenerCount (onE nsExample (Key.str "ping".toList) 7)
       (Key.str "ping".toList)) :=
  ⟨C7_nonempty_table_invariant.1 nsExample (Key.str "ping".toList) 7 (by decide),
   C7_nonempty_table_invariant.2.2.2.2.2.2 (onE nsExample (Key.str "ping".toList) 7)
     (Key.str "ping".toList) (by decide) (by decide)⟩

/-- A handler whose body throws: the thrown value propagates. -/
theorem invokeH_plain_throw (env : Env) (f : Nat) (st : EState) (h : HandlerId)
    (args : CallArgs) (e : Value) (hh : env h = .plain [.aThrow e]) :
    invokeH env (f + 1) st h args = ⟨st, [(h, args)], .threw (.thrown e)⟩ := by
  simp [invokeH, hh, runActs, applyAct, Res.seq]

/-- Counterexample to C6 as stated: a handler throws the value `7`
during dispatch, and what surfaces to the `emit` caller is that very
value — `Outcome.threw (ErrVal.thrown 7)`, the unchanged original — not
a `HandlerError` object wrapping it. No such wrapper exists anywhere in
the source: `emit` has no try/catch and constructs no error, which is
why the embedding's error channel can only carry the original value.
(The trace also shows dispatch stops at the throw: handler `31`, later
in the same snapshot, never runs.) -/
theorem C6_counterexample :
    (emit envC6 9 (⟨[(Key.num 1, [30, 31])], [], [], none, false, false⟩ : EState)
      (Key.num 1) (some 5)).out = .threw (.thrown 7) ∧
    (emit envC6 9 (⟨[(Key.num 1, [30, 31])], [], [], none, false, false⟩ : EState)
      (Key.num 1) (some 5)).tr = [(30, CallArgs.payloadOnly 5)] := by
  constructor <;>
  · rw [show (9 : Nat) = 8 + 1 from rfl,
      emit_unfold_exact envC6 8
        (⟨[(Key.num 1, [30, 31])], [], [], none, false, false⟩ : EState)
        (Key.num 1) (some 5) [30, 31] (by decide)]
    simp [payloadArgs, invokeList, invokeH_pos, envC6, runActs, applyAct, Res.seq]

/-- C6 amended: a handler that throws during dispatch surfaces to the
`emit` caller as the original thrown error itself — unwrapped, since the
dispatcher constructs no error object of its own — and the dispatcher
neither swallows nor logs it (the emit outcome is exactly the throw);
handlers after the throwing one in the same dispatch do not run. Holds
for any state whose exact set for the key starts with the throwing
handler. -/
theorem C6_amended (env : Env) (f : Nat) (st : EState) (K : Key) (h : HandlerId)
    (hs : List HandlerId) (p e : Value)
    (hget : mapGet st.exact K = some (h :: hs)) (hh : env h = .plain [.aThrow e]) :
    emit env (f + 2) st K (some p) =
      ⟨st, [(h, CallArgs.payloadOnly p)], .threw (.thrown e)⟩ := by
  rw [show f + 2 = (f + 1) + 1 from rfl,
    emit_unfold_exact env (f + 1) st K (some p) (h :: hs) hget]
  rw [invokeList, invokeH_plain_throw env f st h (payloadArgs (some p)) e hh]
  simp [Res.seq, payloadArgs]

/-- Witness for the amended C6 at key `1`, payload `5`, thrown value `7`. -/
theorem C6_amended_witness :
    emit envC6 2 (⟨[(Key.num 1, [30, 31])], [], [], none, false, false⟩ : EState)
      (Key.num 1) (some 5) =
      ⟨⟨[(Key.num 1, [30, 31])], [], [], none, false, false⟩,
        [(30, CallArgs.payloadOnly 5)], .threw (.thrown 7)⟩ :=
  C6_amended envC6 0 _ (Key.num 1) 30 [31] 5 7 (by decide) rfl

end StartlingEmitter
